import Mathlib

/-!
Verification of the osm2pgsql middle (staging) layer, shallowly embedded from
`middle-pgsql.cpp` and `id-tracker.hpp`.  C strings are modelled as `List Char`
(no terminating NUL), OSM ids as `Int` (signed 64-bit in the source; no
arithmetic close to the 64-bit boundary occurs in the claims), and the
PostgreSQL staging store as explicit table states.  Prepared SQL statements
are transcribed from the `PREPARE` strings in `middle_pgsql_t::middle_pgsql_t`.
-/

namespace OsmMiddle

/-- C strings, modelled as lists of characters (the terminating NUL is not part
of the value). -/
abbrev Str := List Char

/-- The `ID_NONE` sentinel: `std::numeric_limits<osmid_t>::max()` = INT64_MAX,
returned by `id_tracker::pop_mark` on an empty tracker. -/
def ID_NONE : Int := 9223372036854775807

/-! ## Relation member partitioning (`middle_pgsql_t::relations_set`) -/

/-- The OSM entity types (`OSMTYPE_NODE`, `OSMTYPE_WAY`, `OSMTYPE_RELATION`). -/
inductive OsmType where
  | node
  | way
  | rel
deriving DecidableEq

/-- A relation member `(type, id, role)`. -/
structure Member where
  type : OsmType
  id : Int
  role : Str

/-- The tag character written in front of a member id: `'n'`, `'w'` or `'r'`
(from the `switch` in `relations_set`). -/
def memberTag : OsmType → Char
  | .node => 'n'
  | .way => 'w'
  | .rel => 'r'

/-- A persisted row of the `%p_rels` table:
`(id, way_off, rel_off, parts, members)` (tags are irrelevant to the claims).
`members` is the flattened `(key, role)` pair list where each key is the tag
character followed by the decimal member id. -/
structure RelRow where
  id : Int
  way_off : Nat
  rel_off : Nat
  parts : List Int
  members : List (Str × Str)

/-- The single pass of `relations_set` that appends each member id to the
array of its type (`node_parts[node_count++] = members[i].id;` etc.). -/
def partsOfType (t : OsmType) (ms : List Member) : List Int :=
  ms.foldl (fun a m => if m.type == t then a ++ [m.id] else a) []

/-- The row built by `middle_pgsql_t::relations_set`: `way_off = node_count`,
`rel_off = node_count + way_count`, `parts = node_parts ++ way_parts ++
rel_parts` (the three `memcpy` calls), and the member list of
`("<t><id>", role)` pairs. -/
def relations_set_row (id : Int) (ms : List Member) : RelRow :=
  let node_parts := partsOfType .node ms
  let way_parts := partsOfType .way ms
  let rel_parts := partsOfType .rel ms
  { id := id
    way_off := node_parts.length
    rel_off := node_parts.length + way_parts.length
    parts := node_parts ++ way_parts ++ rel_parts
    members := ms.map (fun m => (memberTag m.type :: (toString m.id).data, m.role)) }

/-- Appending-fold form of a filter-map: the `relations_set` per-type append
loop equals `filter` then `map`. -/
theorem partsOfType_eq_filter_map (t : OsmType) (ms : List Member) :
    partsOfType t ms = (ms.filter (fun m => m.type == t)).map Member.id := by
  suffices h : ∀ acc, ms.foldl (fun a m => if m.type == t then a ++ [m.id] else a) acc
      = acc ++ (ms.filter (fun m => m.type == t)).map Member.id by
    simpa [partsOfType] using h []
  induction ms with
  | nil => intro acc; simp
  | cons m rest ih =>
      intro acc
      rw [List.foldl_cons, ih, List.filter_cons]
      by_cases h : (m.type == t) = true
      · simp [h]
      · simp [h]

/-! ## The pending-id tracker (`id_tracker`) -/

/-- Modelled from the spec: the `id_tracker` implementation is not among the
sources (only `id-tracker.hpp` declares `mark` / `is_marked` / `pop_mark` /
`size`).  Spec §4.1: a mutable set of ids; `mark` inserts idempotently;
`pop_mark` removes and returns any element, or `ID_NONE` when empty; drained
order is unspecified, modelled deterministically as first-marked-first-popped.
The tracker state is the list of currently marked ids, oldest first, without
duplicates. -/
def Tracker := List Int

/-- Modelled from the spec: `id_tracker::mark(id)` — insert, idempotent. -/
def Tracker.mark (t : List Int) (id : Int) : List Int :=
  if id ∈ t then t else t ++ [id]

/-- Modelled from the spec: `id_tracker::pop_mark()` — remove and return an
element, or `ID_NONE` when the tracker is empty. -/
def Tracker.popMark : List Int → Int × List Int
  | [] => (ID_NONE, [])
  | x :: xs => (x, xs)

/-- An interleaving step on a tracker: a `mark(id)` call or a `pop_mark` call. -/
inductive TrackOp where
  | mark (id : Int)
  | pop

/-- Run an interleaving of `mark`/`pop_mark` calls; returns the list of values
returned by the `pop_mark` calls (in call order, `ID_NONE` included) and the
final tracker state. -/
def runOps : List TrackOp → List Int → List Int × List Int
  | [], t => ([], t)
  | .mark i :: rest, t => runOps rest (Tracker.mark t i)
  | .pop :: rest, t =>
      let p := Tracker.popMark t
      let r := runOps rest p.2
      (p.1 :: r.1, r.2)

/-- The second-pass drain loop shape shared by `iterate_ways` and
`iterate_relations`: `while ((id = tracker->pop_mark()) != ID_NONE) ...`.
Returns the drained ids (in pop order) and the tracker left behind when the
loop exits. -/
def drainLoop : List Int → List Int × List Int
  | [] => ([], [])
  | x :: xs =>
      if x = ID_NONE then ([], xs)
      else
        let r := drainLoop xs
        (x :: r.1, r.2)

/-- The distinct marked ids of an interleaving, in first-mark order; `seen`
accumulates ids already counted. -/
def marksAcc : List TrackOp → List Int → List Int
  | [], _ => []
  | .mark i :: rest, seen =>
      if i ∈ seen then marksAcc rest seen else i :: marksAcc rest (i :: seen)
  | .pop :: rest, seen => marksAcc rest seen

/-- Well-formed interleavings: no id is marked after a `pop_mark` already
returned it (`popped` lists the ids returned so far), and `ID_NONE` is never
marked (spec invariant I5). -/
def goodOps : List TrackOp → List Int → List Int → Bool
  | [], _, _ => true
  | .mark i :: rest, t, popped =>
      decide (i ∉ popped) && decide (i ≠ ID_NONE) && goodOps rest (Tracker.mark t i) popped
  | .pop :: rest, t, popped =>
      match t with
      | [] => goodOps rest [] popped
      | x :: xs => goodOps rest xs (popped ++ [x])

/-- Claim C5: for every member list given to `relations_set`, the persisted
row satisfies `way_off = count(node members)`,
`rel_off = count(node members) + count(way members)`,
`0 ≤ way_off ≤ rel_off ≤ |parts|`, and `parts` is the concatenation of the
node refs, the way refs, then the relation refs, each group in the original
member order. -/
theorem relations_set_offsets (id : Int) (ms : List Member) :
    (relations_set_row id ms).way_off = (ms.filter (fun m => m.type == .node)).length ∧
    (relations_set_row id ms).rel_off
      = (relations_set_row id ms).way_off + (ms.filter (fun m => m.type == .way)).length ∧
    (relations_set_row id ms).way_off ≤ (relations_set_row id ms).rel_off ∧
    (relations_set_row id ms).rel_off ≤ (relations_set_row id ms).parts.length ∧
    (relations_set_row id ms).parts
      = (ms.filter (fun m => m.type == .node)).map Member.id
        ++ (ms.filter (fun m => m.type == .way)).map Member.id
        ++ (ms.filter (fun m => m.type == .rel)).map Member.id := by
  refine ⟨?_, ?_, ?_, ?_, ?_⟩
  · show (partsOfType .node ms).length = (ms.filter (fun m => m.type == .node)).length
    rw [partsOfType_eq_filter_map, List.length_map]
  · show (partsOfType .node ms).length + (partsOfType .way ms).length
      = (partsOfType .node ms).length + (ms.filter (fun m => m.type == .way)).length
    rw [partsOfType_eq_filter_map OsmType.way ms, List.length_map]
  · show (partsOfType .node ms).length
      ≤ (partsOfType .node ms).length + (partsOfType .way ms).length
    exact Nat.le_add_right _ _
  · show (partsOfType .node ms).length + (partsOfType .way ms).length
      ≤ (partsOfType .node ms ++ partsOfType .way ms ++ partsOfType .rel ms).length
    rw [List.length_append, List.length_append]
    exact Nat.le_add_right _ _
  · show partsOfType .node ms ++ partsOfType .way ms ++ partsOfType .rel ms
      = (ms.filter (fun m => m.type == .node)).map Member.id
        ++ (ms.filter (fun m => m.type == .way)).map Member.id
        ++ (ms.filter (fun m => m.type == .rel)).map Member.id
    rw [partsOfType_eq_filter_map, partsOfType_eq_filter_map, partsOfType_eq_filter_map]

/-- Popping until `ID_NONE` from a tracker that never contains `ID_NONE`
yields every tracked id and leaves the tracker empty. -/
theorem drainLoop_of_not_none (t : List Int) (h : ID_NONE ∉ t) :
    drainLoop t = (t, []) := by
  induction t with
  | nil => rfl
  | cons x xs ih =>
      have hx : ¬(x = ID_NONE) := fun hh => h (hh ▸ List.mem_cons_self x xs)
      have hxs : ID_NONE ∉ xs := fun hh => h (List.mem_cons_of_mem x hh)
      simp [drainLoop, hx, ih hxs]

/-- The conservation invariant of the tracker: along any well-formed
interleaving, tracked ids plus non-`ID_NONE` popped ids account exactly for
the distinct marks (as a permutation), the tracker stays duplicate-free, and
`ID_NONE` never enters it. -/
theorem runOps_invariant (ops : List TrackOp) :
    ∀ (t popped seen : List Int),
      goodOps ops t popped = true →
      t.Nodup →
      (∀ i : Int, i ∈ seen ↔ (i ∈ t ∨ i ∈ popped)) →
      (∀ i ∈ t, i ∉ popped ∧ i ≠ ID_NONE) →
      ((runOps ops t).2 ++ (runOps ops t).1.filter (· != ID_NONE)).Perm
          (t ++ marksAcc ops seen)
      ∧ (runOps ops t).2.Nodup
      ∧ (∀ i ∈ (runOps ops t).2, i ≠ ID_NONE) := by
  induction ops with
  | nil =>
      intro t popped seen _ ht _ hd
      exact ⟨by simp [runOps, marksAcc], ht, fun i hi => (hd i hi).2⟩
  | cons op rest ih =>
      intro t popped seen hg ht hseen hd
      cases op with
      | mark i =>
          simp only [goodOps, Bool.and_eq_true, decide_eq_true_eq] at hg
          obtain ⟨⟨hip, hin⟩, hgr⟩ := hg
          by_cases hmem : i ∈ t
          · have hmark : Tracker.mark t i = t := by simp [Tracker.mark, hmem]
            have hseenI : i ∈ seen := (hseen i).mpr (Or.inl hmem)
            have hres := ih t popped seen (by rwa [hmark] at hgr) ht hseen hd
            have hmarks : marksAcc (TrackOp.mark i :: rest) seen = marksAcc rest seen := by
              simp [marksAcc, hseenI]
            simp only [runOps, hmark, hmarks]
            exact hres
          · have hmark : Tracker.mark t i = t ++ [i] := by simp [Tracker.mark, hmem]
            have hseenI : i ∉ seen := fun hh => ((hseen i).mp hh).elim hmem hip
            have hnodup : (t ++ [i]).Nodup := by
              refine List.Nodup.append ht (List.nodup_singleton i) ?_
              intro a ha hb
              rw [List.mem_singleton] at hb
              exact hmem (hb ▸ ha)
            have hseen2 : ∀ j : Int, j ∈ i :: seen ↔ (j ∈ t ++ [i] ∨ j ∈ popped) := by
              intro j
              simp only [List.mem_cons, List.mem_append, List.mem_singleton, hseen j]
              tauto
            have hd2 : ∀ j ∈ t ++ [i], j ∉ popped ∧ j ≠ ID_NONE := by
              intro j hj
              rcases List.mem_append.mp hj with hj | hj
              · exact hd j hj
              · rcases List.mem_singleton.mp hj with rfl
                exact ⟨hip, hin⟩
            have hres := ih (t ++ [i]) popped (i :: seen)
              (by rwa [hmark] at hgr) hnodup hseen2 hd2
            have hmarks : marksAcc (TrackOp.mark i :: rest) seen
                = i :: marksAcc rest (i :: seen) := by
              simp [marksAcc, hseenI]
            simp only [runOps, hmark, hmarks]
            refine ⟨?_, hres.2.1, hres.2.2⟩
            have hperm := hres.1
            rw [List.append_assoc] at hperm
            simpa using hperm
      | pop =>
          cases t with
          | nil =>
              simp only [goodOps] at hg
              have hres := ih [] popped seen hg List.nodup_nil
                (by intro i; simpa using hseen i) (by intro i hi; simp at hi)
              simp only [runOps, Tracker.popMark, marksAcc, List.filter_cons,
                bne_self_eq_false, Bool.false_eq_true, if_false]
              exact hres
          | cons x xs =>
              simp only [goodOps] at hg
              have hx := hd x (List.mem_cons_self x xs)
              have hxs : xs.Nodup := ht.of_cons
              have hxnot : x ∉ xs := (List.nodup_cons.mp ht).1
              have hseen2 : ∀ i : Int, i ∈ seen ↔ (i ∈ xs ∨ i ∈ popped ++ [x]) := by
                intro i
                rw [hseen i]
                simp only [List.mem_cons, List.mem_append, List.mem_singleton]
                tauto
              have hd2 : ∀ i ∈ xs, i ∉ popped ++ [x] ∧ i ≠ ID_NONE := by
                intro i hi
                have hdi := hd i (List.mem_cons_of_mem x hi)
                constructor
                · intro hmem
                  rcases List.mem_append.mp hmem with hh | hh
                  · exact hdi.1 hh
                  · exact hxnot (List.mem_singleton.mp hh ▸ hi)
                · exact hdi.2
              have hres := ih xs (popped ++ [x]) seen hg hxs hseen2 hd2
              have hfil : (x :: (runOps rest xs).1).filter (· != ID_NONE)
                  = x :: (runOps rest xs).1.filter (· != ID_NONE) := by
                simp [List.filter_cons, hx.2]
              simp only [runOps, Tracker.popMark, marksAcc, hfil]
              refine ⟨?_, hres.2.1, hres.2.2⟩
              have step : ((runOps rest xs).2 ++ x :: (runOps rest xs).1.filter (· != ID_NONE)).Perm
                  (x :: ((runOps rest xs).2 ++ (runOps rest xs).1.filter (· != ID_NONE))) :=
                List.perm_middle
              exact step.trans (hres.1.cons x)

/-- Claim C8 (amended): for every interleaving of `mark`/`pop_mark` in which no
id is marked after a pop already returned it and `ID_NONE` is never marked,
the multiset of non-`ID_NONE` ids returned by the pops together with the final
drain equals the set of distinct marked ids (each exactly once); the drain
loop leaves the tracker empty; and `pop_mark` on an empty tracker returns
`ID_NONE`. -/
theorem tracker_drain_spec (ops : List TrackOp)
    (hg : goodOps ops [] [] = true) :
    (((runOps ops []).1.filter (· != ID_NONE)
        ++ (drainLoop (runOps ops []).2).1 : List Int) : Multiset Int)
      = ((marksAcc ops [] : List Int) : Multiset Int)
    ∧ (drainLoop (runOps ops []).2).2 = []
    ∧ Tracker.popMark [] = (ID_NONE, []) := by
  have hres := runOps_invariant ops [] [] []
    hg List.nodup_nil (by simp) (by intro i hi; simp at hi)
  have hnone : ID_NONE ∉ (runOps ops []).2 := fun hh => hres.2.2 ID_NONE hh rfl
  have hdrain := drainLoop_of_not_none _ hnone
  refine ⟨?_, by rw [hdrain], rfl⟩
  rw [hdrain]
  rw [Multiset.coe_eq_coe]
  have hperm := hres.1
  simp only [List.nil_append] at hperm
  exact (List.perm_append_comm).trans hperm

/-- Claim C8, counterexample: marking an id again after it was popped makes
that id be yielded twice, so the popped multiset differs from the set of
distinct marks (`mark 5; pop; mark 5`, then drain, yields `5` twice). -/
theorem tracker_remark_counterexample :
    (((runOps [.mark 5, .pop, .mark 5] []).1.filter (· != ID_NONE)
        ++ (drainLoop (runOps [.mark 5, .pop, .mark 5] []).2).1 : List Int) : Multiset Int)
      ≠ ((marksAcc [.mark 5, .pop, .mark 5] [] : List Int) : Multiset Int) := by
  decide

/-- Witness for `tracker_drain_spec` at a concrete well-formed interleaving. -/
theorem tracker_drain_spec_witness :
    (((runOps [.mark 3, .mark 7, .pop, .mark 7, .pop, .pop] []).1.filter (· != ID_NONE)
        ++ (drainLoop (runOps [.mark 3, .mark 7, .pop, .mark 7, .pop, .pop] []).2).1
        : List Int) : Multiset Int)
      = ((marksAcc [.mark 3, .mark 7, .pop, .mark 7, .pop, .pop] [] : List Int) : Multiset Int) :=
  (tracker_drain_spec [.mark 3, .mark 7, .pop, .mark 7, .pop, .pop] (by decide)).1

/-! ## The staging store: ways and rels tables, change propagation -/

/-- A row of the `%p_ways` table: `(id, nodes)` (tags are irrelevant to the
claims). -/
structure WayRow where
  id : Int
  nodes : List Int

/-- The committed contents of the ways and rels tables. -/
structure MidDB where
  ways : List WayRow
  rels : List RelRow

/-- The two pending trackers of the middle layer
(`ways_pending_tracker`, `rels_pending_tracker`). -/
structure Pending where
  ways : List Int
  rels : List Int

/-- Prepared statement `mark_ways_by_node` (way table):
`select id from %p_ways WHERE nodes && ARRAY[$1]`. -/
def mark_ways_by_node (db : MidDB) (n : Int) : List Int :=
  (db.ways.filter (fun w => decide (n ∈ w.nodes))).map WayRow.id

/-- Prepared statement `mark_rels_by_node` (rel table), transcribed from the
source: `select id from %p_ways WHERE nodes && ARRAY[$1]` — it selects from
the ways table, not the rels table, and therefore returns way ids. -/
def mark_rels_by_node (db : MidDB) (n : Int) : List Int :=
  (db.ways.filter (fun w => decide (n ∈ w.nodes))).map WayRow.id

/-- Whether a persisted relation references node `n` directly as a node
member: the node-member group of `parts` is its first `way_off` entries. -/
def relReferencesNode (r : RelRow) (n : Int) : Bool :=
  decide (n ∈ r.parts.take r.way_off)

/-- `middle_pgsql_t::node_changed`: ends any copy on the way and rel tables,
then marks every id returned by `mark_ways_by_node` into the pending-ways
tracker and every id returned by `mark_rels_by_node` into the pending-rels
tracker. -/
def node_changed (db : MidDB) (p : Pending) (n : Int) : Pending :=
  { ways := (mark_ways_by_node db n).foldl Tracker.mark p.ways
    rels := (mark_rels_by_node db n).foldl Tracker.mark p.rels }

/-- Claim C1, evaluation at the failing input: with way 10 containing node 1
and relation 20 referencing node 1 directly as a node member,
`node_changed(1)` marks way 10 into pending_ways (as the claim states) but
marks 10 — a way id — into pending_rels and does not mark relation 20,
because the prepared `mark_rels_by_node` selects from the ways table. -/
theorem node_changed_rels_bug :
    relReferencesNode ⟨20, 1, 1, [1], [(['n', '1'], [])]⟩ 1 = true
    ∧ (node_changed ⟨[⟨10, [1]⟩], [⟨20, 1, 1, [1], [(['n', '1'], [])]⟩]⟩ ⟨[], []⟩ 1).ways = [10]
    ∧ (node_changed ⟨[⟨10, [1]⟩], [⟨20, 1, 1, [1], [(['n', '1'], [])]⟩]⟩ ⟨[], []⟩ 1).rels = [10]
    ∧ (20 : Int) ∉ (node_changed ⟨[⟨10, [1]⟩], [⟨20, 1, 1, [1], [(['n', '1'], [])]⟩]⟩ ⟨[], []⟩ 1).rels := by
  decide

/-- Marking keeps old members and adds the marked id. -/
theorem Tracker.mem_mark (t : List Int) (i a : Int) (h : a ∈ t ∨ a = i) :
    a ∈ Tracker.mark t i := by
  unfold Tracker.mark
  by_cases hmem : i ∈ t
  · rcases h with h | rfl
    · simpa [hmem] using h
    · simp only [if_pos hmem]
      exact hmem
  · rcases h with h | rfl
    · simp [hmem, h]
    · simp [hmem]

/-- Folding `mark` over a list inserts every listed id and keeps old members. -/
theorem mem_foldl_mark (l : List Int) : ∀ (init : List Int) (a : Int),
    (a ∈ init ∨ a ∈ l) → a ∈ l.foldl Tracker.mark init := by
  induction l with
  | nil =>
      intro init a h
      rcases h with h | h
      · simpa using h
      · simp at h
  | cons x xs ih =>
      intro init a h
      rw [List.foldl_cons]
      apply ih
      rcases h with h | h
      · exact Or.inl (Tracker.mem_mark init x a (Or.inl h))
      · rcases List.mem_cons.mp h with rfl | h
        · exact Or.inl (Tracker.mem_mark init a a (Or.inr rfl))
        · exact Or.inr h

/-! ## Relation deletion (`middle_pgsql_t::relations_delete`) -/

/-- Prepared statement `mark_ways_by_rel` (way table): `select id from %p_ways
WHERE id IN (SELECT unnest(parts[way_off+1:rel_off]) FROM %p_rels WHERE id =
$1)`, evaluated against the rel-table rows visible to the way connection. -/
def mark_ways_by_rel (relsVisible : List RelRow) (ways : List WayRow) (r : Int) : List Int :=
  match relsVisible.find? (fun q => q.id == r) with
  | none => []
  | some row =>
      let wayRefs := (row.parts.drop row.way_off).take (row.rel_off - row.way_off)
      (ways.filter (fun w => decide (w.id ∈ wayRefs))).map WayRow.id

/-- Middle state for the delete path.  Every table connection runs inside a
transaction opened by `start()` (each table's `start` SQL is `BEGIN;`) until
`commit()`; while the rel transaction is open, a delete issued on the rel
connection is not yet visible to the way connection (read-committed
isolation), so the `mark_ways_by_rel` query executed on the way connection
still observes the committed relation row. -/
structure MidState where
  db : MidDB
  pending : Pending
  relTxnOpen : Bool
  relTxnDeletes : List Int

/-- `middle_pgsql_t::relations_delete`: ends copies on the way and rel tables,
executes `delete_rel` on the rel connection, then `mark_ways_by_rel` on the
way connection and marks each returned way id into the pending-ways tracker. -/
def relations_delete (s : MidState) (r : Int) : MidState :=
  let s1 := if s.relTxnOpen
    then { s with relTxnDeletes := s.relTxnDeletes ++ [r] }
    else { s with db := { s.db with rels := s.db.rels.filter (fun q => q.id != r) } }
  let marked := mark_ways_by_rel s1.db.rels s1.db.ways r
  { s1 with pending := { s1.pending with ways := marked.foldl Tracker.mark s1.pending.ways } }

/-- `commit()` on the rel table: the transaction ends and its uncommitted
deletes become visible. -/
def relCommit (s : MidState) : MidState :=
  { s with
    db := { s.db with
      rels := s.db.rels.filter (fun q => decide (q.id ∉ s.relTxnDeletes)) }
    relTxnOpen := false
    relTxnDeletes := [] }

/-- While the rel transaction is open, `relations_delete` queues the delete,
leaves the stored rel rows untouched, and marks the `mark_ways_by_rel` result
into the pending-way tracker. -/
theorem relations_delete_open (s : MidState) (r : Int)
    (htxn : s.relTxnOpen = true) :
    relations_delete s r
      = { db := s.db
          pending := { s.pending with
            ways := (mark_ways_by_rel s.db.rels s.db.ways r).foldl
              Tracker.mark s.pending.ways }
          relTxnOpen := s.relTxnOpen
          relTxnDeletes := s.relTxnDeletes ++ [r] } := by
  simp only [relations_delete, htxn, if_true]

/-- Rel rows are untouched while the transaction is open. -/
theorem relations_delete_open_rels (s : MidState) (r : Int)
    (htxn : s.relTxnOpen = true) :
    (relations_delete s r).db.rels = s.db.rels := by
  rw [relations_delete_open s r htxn]

/-- The delete joins the queued deletes while the transaction is open. -/
theorem relations_delete_open_txn (s : MidState) (r : Int)
    (htxn : s.relTxnOpen = true) :
    (relations_delete s r).relTxnDeletes = s.relTxnDeletes ++ [r] := by
  rw [relations_delete_open s r htxn]

/-- The pending-way tracker receives the `mark_ways_by_rel` ids while the
transaction is open. -/
theorem relations_delete_open_pending (s : MidState) (r : Int)
    (htxn : s.relTxnOpen = true) :
    (relations_delete s r).pending.ways
      = (mark_ways_by_rel s.db.rels s.db.ways r).foldl Tracker.mark s.pending.ways := by
  rw [relations_delete_open s r htxn]

/-- Committing the rel transaction filters out the queued deletes. -/
theorem relCommit_rels (s : MidState) :
    (relCommit s).db.rels
      = s.db.rels.filter (fun q => decide (q.id ∉ s.relTxnDeletes)) := rfl

/-- Claim C3 (amended): while the rel-table transaction opened by `start()` is
still open (as it is for every delete issued between `start()` and
`commit()`), `relations_delete(r)` on a stored relation deletes it (visible
once the transaction commits) and marks into pending_ways every way member of
the relation that is present in the ways table. -/
theorem relations_delete_spec (s : MidState) (r : Int) (row : RelRow)
    (htxn : s.relTxnOpen = true)
    (hfind : s.db.rels.find? (fun q => q.id == r) = some row) :
    (∀ q ∈ (relCommit (relations_delete s r)).db.rels, q.id ≠ r)
    ∧ (∀ w ∈ s.db.ways,
        w.id ∈ (row.parts.drop row.way_off).take (row.rel_off - row.way_off) →
        w.id ∈ (relations_delete s r).pending.ways) := by
  constructor
  · intro q hq
    rw [relCommit_rels, relations_delete_open_rels s r htxn,
      relations_delete_open_txn s r htxn] at hq
    have h2 := (List.mem_filter.mp hq).2
    rw [decide_eq_true_eq] at h2
    intro hid
    exact h2 (by rw [hid]; simp)
  · intro w hw hmem
    rw [relations_delete_open_pending s r htxn]
    apply mem_foldl_mark
    right
    simp only [mark_ways_by_rel, hfind]
    rw [List.mem_map]
    refine ⟨w, ?_, rfl⟩
    rw [List.mem_filter]
    exact ⟨hw, by simpa using hmem⟩

/-- Claim C3, counterexample: relation 300 is stored with way member 99, but
no way 99 exists in the ways table, so `relations_delete(300)` marks nothing:
`mark_ways_by_rel` only returns ids present in `%p_ways`.  The claim as
stated requires 99 to be marked. -/
theorem relations_delete_missing_way_counterexample :
    (99 : Int) ∈ (((⟨300, 0, 1, [99], []⟩ : RelRow).parts.drop 0).take 1)
    ∧ (99 : Int) ∉
        (relations_delete ⟨⟨[], [⟨300, 0, 1, [99], []⟩]⟩, ⟨[], []⟩, true, []⟩ 300).pending.ways := by
  decide

/-- Witness for `relations_delete_spec`: relation 300 with way member 10,
way 10 present; the delete marks 10 pending. -/
theorem relations_delete_spec_witness :
    (10 : Int) ∈
      (relations_delete ⟨⟨[⟨10, [1]⟩], [⟨300, 0, 1, [10], []⟩]⟩, ⟨[], []⟩, true, []⟩ 300).pending.ways :=
  (relations_delete_spec ⟨⟨[⟨10, [1]⟩], [⟨300, 0, 1, [10], []⟩]⟩, ⟨[], []⟩, true, []⟩ 300
    ⟨300, 0, 1, [10], []⟩ rfl rfl).2 ⟨10, [1]⟩ (List.mem_cons_self _ _) (by decide)

/-! ## The second pass (`iterate_ways`, `iterate_relations`) -/

/-- `ways_get` succeeds (returns 0) exactly when the `get_way` prepared
statement returns one row, i.e. the id is present in the ways table. -/
def waysGetOk (db : MidDB) (id : Int) : Bool :=
  (db.ways.find? (fun w => w.id == id)).isSome

/-- `relations_get` succeeds (returns 0) exactly when `get_rel` returns one
row, i.e. the id is present in the rels table. -/
def relationsGetOk (db : MidDB) (id : Int) : Bool :=
  (db.rels.find? (fun q => q.id == id)).isSome

/-- The shared second-pass loop of `iterate_ways` / `iterate_relations`: pop
until `ID_NONE`; for each popped id, fetch the entity and invoke the output
callback only when the fetch returns 0; a failed fetch is skipped silently
and the loop continues.  Returns the ids passed to the callback, in order,
and the tracker contents left behind when the loop exits. -/
def iterateLoop (found : Int → Bool) : List Int → List Int × List Int
  | [] => ([], [])
  | x :: xs =>
      if x = ID_NONE then ([], xs)
      else
        let r := iterateLoop found xs
        (if found x then x :: r.1 else r.1, r.2)

/-- `middle_pgsql_t::iterate_ways`, restricted to its callback behaviour. -/
def iterate_ways (db : MidDB) (t : List Int) : List Int × List Int :=
  iterateLoop (waysGetOk db) t

/-- `middle_pgsql_t::iterate_relations`, restricted to its callback
behaviour. -/
def iterate_relations (db : MidDB) (t : List Int) : List Int × List Int :=
  iterateLoop (relationsGetOk db) t

/-- A drain loop over a tracker that never contains `ID_NONE` invokes the
callback exactly on the present ids and empties the tracker. -/
theorem iterateLoop_filter (found : Int → Bool) (t : List Int) (h : ID_NONE ∉ t) :
    iterateLoop found t = (t.filter found, []) := by
  induction t with
  | nil => rfl
  | cons x xs ih =>
      have hx : ¬(x = ID_NONE) := fun hh => h (hh ▸ List.mem_cons_self x xs)
      have hxs : ID_NONE ∉ xs := fun hh => h (List.mem_cons_of_mem x hh)
      by_cases hf : found x
      · simp [iterateLoop, hx, hf, ih hxs, List.filter_cons]
      · simp [iterateLoop, hx, hf, ih hxs, List.filter_cons]

/-- Claim C10: during the second pass the output callback is invoked exactly
for the drained pending ids whose entity fetch from the store succeeds; a
pending id whose entity no longer exists is skipped silently, without
invoking the callback and without aborting the iteration (the full tracker is
still drained). -/
theorem iterate_skips_missing (db : MidDB) (t : List Int) (h : ID_NONE ∉ t) :
    iterate_ways db t = (t.filter (waysGetOk db), [])
    ∧ iterate_relations db t = (t.filter (relationsGetOk db), []) :=
  ⟨iterateLoop_filter (waysGetOk db) t h, iterateLoop_filter (relationsGetOk db) t h⟩

/-- Witness for `iterate_skips_missing`: way 1 exists, way 2 does not; the
callback fires only for 1 and the tracker ends empty. -/
theorem iterate_skips_missing_witness :
    iterate_ways ⟨[⟨1, [5]⟩], []⟩ [1, 2] = ([1], [])
    ∧ iterate_relations ⟨[⟨1, [5]⟩], []⟩ [1, 2] = ([], []) := by
  have h := iterate_skips_missing ⟨[⟨1, [5]⟩], []⟩ [1, 2] (by decide)
  exact ⟨by rw [h.1]; decide, by rw [h.2]; decide⟩

/-! ## Batched node lookup (`middle_pgsql_t::local_nodes_get_list`) -/

/-- A node coordinate `(lat, lon)`.  The claims are agnostic to the encoding;
the fixed-point build stores a pair of scaled ints.  The source marks
not-yet-found positions with NaN; the model uses `none`. -/
abbrev Coord := Int × Int

/-- The rows returned by the batched `get_node_list` prepared statement for
the queried miss list: one `(id, lat, lon)` row per queried id present in the
nodes table (order immaterial; modelled in query order). -/
def dbRows (db : Int → Option Coord) (misses : List Int) : List (Int × Coord) :=
  misses.filterMap (fun i => (db i).map (fun c => (i, c)))

/-- The match-back scan of `local_nodes_get_list` (`ndidspg[j] == ndids[i]`):
find the returned row whose id equals the requested id. -/
def lookupRow (rows : List (Int × Coord)) (i : Int) : Option Coord :=
  (rows.find? (fun q => q.1 == i)).map (fun q => q.2)

/-- The positions not satisfied by the RAM cache, i.e. the id list sent to
the batched `get_node_list` query (one entry per missing position). -/
def missList (cache : Int → Option Coord) (ids : List Int) : List Int :=
  ids.filter (fun i => (cache i).isNone)

/-- The out array after the cache pass and the scatter of the query rows:
cache hits keep their value, misses receive the matching returned row (NaN —
`none` — if none matches). -/
def scatterOut (cache db : Int → Option Coord) (ids : List Int) : List (Option Coord) :=
  ids.map (fun i => match cache i with
    | some c => some c
    | none => lookupRow (dbRows db (missList cache ids)) i)

/-- The running `count` after the scatter loop: cache hits plus scattered
rows. -/
def foundCount (cache db : Int → Option Coord) (ids : List Int) : Nat :=
  (ids.filter (fun i => (cache i).isSome)).length
    + ((missList cache ids).filter
        (fun i => (lookupRow (dbRows db (missList cache ids)) i).isSome)).length

/-- `middle_pgsql_t::local_nodes_get_list`.  `cache` is the RAM cache
(`node_ram_cache::get`, a pure hit/miss) and `db` the nodes table.  Phases as
in the source: fill each position from the cache, marking misses NaN
(`none`); if there was no miss, return the hit count early; otherwise issue
one batched `get_node_list` over the misses and scatter the rows back by id;
finally, if some ids have no coordinate (`count != nd_count`), left-pack the
found entries into a contiguous prefix, positions `count ..` keeping their
stale scattered values.  Returns the out array and the found count. -/
def local_nodes_get_list (cache db : Int → Option Coord) (ids : List Int) :
    List (Option Coord) × Nat :=
  if (missList cache ids).isEmpty then
    (ids.map cache, (ids.filter (fun i => (cache i).isSome)).length)
  else if foundCount cache db ids = ids.length then
    (scatterOut cache db ids, foundCount cache db ids)
  else
    (((scatterOut cache db ids).filterMap (fun c => c)).map some
        ++ (scatterOut cache db ids).drop (foundCount cache db ids),
      foundCount cache db ids)

/-- Whether an id has a coordinate at all: RAM cache hit or nodes-table row. -/
def nodeFound (cache db : Int → Option Coord) (i : Int) : Bool :=
  (cache i).isSome || (db i).isSome

/-- The coordinate served for an id: the RAM cache value on a hit, otherwise
the nodes-table value. -/
def nodeCoord (cache db : Int → Option Coord) (i : Int) : Option Coord :=
  match cache i with
  | some c => some c
  | none => db i

/-- The match-back scan recovers exactly the store value for every queried
miss, and nothing for ids that were not queried. -/
theorem lookupRow_dbRows (db : Int → Option Coord) (l : List Int) (i : Int) :
    lookupRow (dbRows db l) i = if i ∈ l then db i else none := by
  induction l with
  | nil => simp [lookupRow, dbRows]
  | cons j rest ih =>
      have hrows : dbRows db (j :: rest)
          = ((db j).map (fun c => (j, c))).toList ++ dbRows db rest := by
        cases hdb : db j <;> simp [dbRows, List.filterMap_cons, hdb]
      cases hdb : db j with
      | none =>
          rw [hrows, hdb]
          show lookupRow (dbRows db rest) i = if i ∈ j :: rest then db i else none
          rw [ih]
          by_cases hj : i = j
          · by_cases hm : i ∈ rest
            · rw [if_pos hm, if_pos (List.mem_cons.mpr (Or.inr hm))]
            · rw [if_neg hm, if_pos (List.mem_cons.mpr (Or.inl hj)), hj, hdb]
          · simp [List.mem_cons, hj]
      | some c =>
          rw [hrows, hdb]
          show lookupRow ((j, c) :: dbRows db rest) i = if i ∈ j :: rest then db i else none
          by_cases hj : i = j
          · rw [if_pos (List.mem_cons.mpr (Or.inl hj))]
            have hbeq : ((j, c).1 == i) = true := by simp [hj.symm]
            simp [lookupRow, List.find?_cons, hbeq, hj, hdb]
          · have hne : ((j, c).1 == i) = false := by
              simp [Ne.symm hj]
            simp only [lookupRow, List.find?_cons, hne]
            rw [show ((dbRows db rest).find? (fun q => q.1 == i)).map (fun q => q.2)
                = lookupRow (dbRows db rest) i from rfl, ih]
            simp [List.mem_cons, hj]

/-- Count additivity: cache hits plus store-only hits are exactly the found
ids. -/
theorem count_split (cache db : Int → Option Coord) (l : List Int) :
    (l.filter (fun i => (cache i).isSome)).length
      + ((l.filter (fun i => (cache i).isNone)).filter (fun i => (db i).isSome)).length
    = (l.filter (nodeFound cache db)).length := by
  induction l with
  | nil => rfl
  | cons x xs ih =>
      cases hc : cache x with
      | some c =>
          have h1 : ((x :: xs).filter (fun i => (cache i).isSome))
              = x :: xs.filter (fun i => (cache i).isSome) :=
            List.filter_cons_of_pos (by rw [hc]; rfl)
          have h2 : ((x :: xs).filter (fun i => (cache i).isNone))
              = xs.filter (fun i => (cache i).isNone) :=
            List.filter_cons_of_neg (by rw [hc]; simp)
          have h3 : ((x :: xs).filter (nodeFound cache db))
              = x :: xs.filter (nodeFound cache db) :=
            List.filter_cons_of_pos (by simp [nodeFound, hc])
          rw [h1, h2, h3]
          simp only [List.length_cons]
          rw [Nat.add_right_comm, ih]
      | none =>
          have h1 : ((x :: xs).filter (fun i => (cache i).isSome))
              = xs.filter (fun i => (cache i).isSome) :=
            List.filter_cons_of_neg (by rw [hc]; simp)
          have h2 : ((x :: xs).filter (fun i => (cache i).isNone))
              = x :: xs.filter (fun i => (cache i).isNone) :=
            List.filter_cons_of_pos (by rw [hc]; rfl)
          cases hdb : db x with
          | some d =>
              have h3 : ((x :: xs).filter (nodeFound cache db))
                  = x :: xs.filter (nodeFound cache db) :=
                List.filter_cons_of_pos (by simp [nodeFound, hc, hdb])
              have h4 : ((x :: xs.filter (fun i => (cache i).isNone)).filter
                    (fun i => (db i).isSome))
                  = x :: (xs.filter (fun i => (cache i).isNone)).filter
                      (fun i => (db i).isSome) :=
                List.filter_cons_of_pos (by rw [hdb]; rfl)
              rw [h1, h2, h4, h3]
              simp only [List.length_cons]
              rw [← Nat.add_assoc, ih]
          | none =>
              have h3 : ((x :: xs).filter (nodeFound cache db))
                  = xs.filter (nodeFound cache db) :=
                List.filter_cons_of_neg (by simp [nodeFound, hc, hdb])
              have h4 : ((x :: xs.filter (fun i => (cache i).isNone)).filter
                    (fun i => (db i).isSome))
                  = (xs.filter (fun i => (cache i).isNone)).filter
                      (fun i => (db i).isSome) :=
                List.filter_cons_of_neg (by rw [hdb]; simp)
              rw [h1, h2, h4, h3]
              exact ih

/-- Left-packing the scattered array keeps exactly the found coordinates, in
order. -/
theorem pack_map (cache db : Int → Option Coord) (l : List Int) :
    ((l.map (nodeCoord cache db)).filterMap (fun c => c)).map some
      = (l.filter (nodeFound cache db)).map (nodeCoord cache db) := by
  induction l with
  | nil => rfl
  | cons x xs ih =>
      cases hc : cache x with
      | some c =>
          have h1 : nodeCoord cache db x = some c := by simp [nodeCoord, hc]
          have h2 : nodeFound cache db x = true := by simp [nodeFound, hc]
          simp only [List.map_cons, List.filterMap_cons, List.filter_cons, h1, h2, if_true]
          rw [ih]
      | none =>
          cases hdb : db x with
          | some c =>
              have h1 : nodeCoord cache db x = some c := by simp [nodeCoord, hc, hdb]
              have h2 : nodeFound cache db x = true := by simp [nodeFound, hc, hdb]
              simp only [List.map_cons, List.filterMap_cons, List.filter_cons, h1, h2, if_true]
              rw [ih]
          | none =>
              have h1 : nodeCoord cache db x = none := by simp [nodeCoord, hc, hdb]
              have h2 : nodeFound cache db x = false := by simp [nodeFound, hc, hdb]
              simp only [List.map_cons, List.filterMap_cons, List.filter_cons, h1, h2,
                Bool.false_eq_true, if_false]
              rw [ih]

/-- A filter that loses no length keeps the whole list. -/
theorem filter_eq_self_of_length (p : Int → Bool) (l : List Int)
    (h : (l.filter p).length = l.length) : l.filter p = l := by
  induction l with
  | nil => rfl
  | cons x xs ih =>
      by_cases hp : p x
      · simp only [List.filter_cons, hp, if_true, List.length_cons] at h ⊢
        rw [ih (Nat.add_right_cancel h)]
      · exfalso
        simp only [List.filter_cons, hp, Bool.false_eq_true, if_false] at h
        have hle := List.length_filter_le p xs
        simp only [List.length_cons] at h
        exact (Nat.ne_of_lt (Nat.lt_succ_of_le hle)) h

/-- The scatter phase computes exactly the cache-else-store coordinate at
every position. -/
theorem scatterOut_eq (cache db : Int → Option Coord) (ids : List Int) :
    scatterOut cache db ids = ids.map (nodeCoord cache db) := by
  refine List.map_congr_left ?_
  intro i hi
  cases hc : cache i with
  | some c => simp [nodeCoord, hc]
  | none =>
      have hmem : i ∈ missList cache ids :=
        List.mem_filter.mpr ⟨hi, by simp [hc]⟩
      simp [nodeCoord, hc, lookupRow_dbRows, hmem]

/-- The scatter count equals the number of found ids. -/
theorem foundCount_eq (cache db : Int → Option Coord) (ids : List Int) :
    foundCount cache db ids = (ids.filter (nodeFound cache db)).length := by
  have hcongr : (missList cache ids).filter
        (fun i => (lookupRow (dbRows db (missList cache ids)) i).isSome)
      = (missList cache ids).filter (fun i => (db i).isSome) := by
    refine List.filter_congr ?_
    intro i hi
    rw [lookupRow_dbRows, if_pos hi]
  unfold foundCount
  rw [hcongr]
  unfold missList
  exact count_split cache db ids

/-- With no cache miss every id is a cache hit. -/
theorem missEmpty_all_hit (cache : Int → Option Coord) (ids : List Int)
    (hM : (missList cache ids).isEmpty = true) :
    ∀ i ∈ ids, (cache i).isSome = true := by
  intro i hi
  by_contra hc
  have hmem : i ∈ missList cache ids :=
    List.mem_filter.mpr ⟨hi, by
      cases hcc : cache i
      · simp
      · exact absurd (by simp [hcc]) hc⟩
  rw [List.isEmpty_iff] at hM
  rw [hM] at hmem
  simp at hmem

/-- On a pure cache hit the cache value is the served coordinate. -/
theorem map_cache_eq_nodeCoord (cache db : Int → Option Coord) (ids : List Int)
    (hall : ∀ i ∈ ids, (cache i).isSome = true) :
    ids.map cache = ids.map (nodeCoord cache db) := by
  refine List.map_congr_left ?_
  intro i hi
  rcases Option.isSome_iff_exists.mp (hall i hi) with ⟨c, hc⟩
  simp [nodeCoord, hc]

/-- Branch equation: every id served from the RAM cache. -/
theorem lngl_all_hit (cache db : Int → Option Coord) (ids : List Int)
    (hM : (missList cache ids).isEmpty = true) :
    local_nodes_get_list cache db ids
      = (ids.map cache, (ids.filter (fun i => (cache i).isSome)).length) := by
  unfold local_nodes_get_list
  rw [if_pos hM]

/-- Branch equation: the store query finds every remaining id. -/
theorem lngl_full (cache db : Int → Option Coord) (ids : List Int)
    (hM : ¬((missList cache ids).isEmpty = true))
    (hF : foundCount cache db ids = ids.length) :
    local_nodes_get_list cache db ids
      = (scatterOut cache db ids, foundCount cache db ids) := by
  unfold local_nodes_get_list
  rw [if_neg hM, if_pos hF]

/-- Branch equation: some ids stay unfound and the output is left-packed. -/
theorem lngl_pack (cache db : Int → Option Coord) (ids : List Int)
    (hM : ¬((missList cache ids).isEmpty = true))
    (hF : ¬(foundCount cache db ids = ids.length)) :
    local_nodes_get_list cache db ids
      = (((scatterOut cache db ids).filterMap (fun c => c)).map some
            ++ (scatterOut cache db ids).drop (foundCount cache db ids),
          foundCount cache db ids) := by
  unfold local_nodes_get_list
  rw [if_neg hM, if_neg hF]

/-- The left-packed prefix lists the found coordinates in request order. -/
theorem lngl_pack_eq (cache db : Int → Option Coord) (ids : List Int) :
    ((scatterOut cache db ids).filterMap (fun c => c)).map some
      = (ids.filter (nodeFound cache db)).map (nodeCoord cache db) := by
  rw [scatterOut_eq]
  exact pack_map cache db ids

/-- The returned count is the number of found ids, in every branch. -/
theorem lngl_snd (cache db : Int → Option Coord) (ids : List Int) :
    (local_nodes_get_list cache db ids).2
      = (ids.filter (nodeFound cache db)).length := by
  by_cases hM : (missList cache ids).isEmpty
  · rw [lngl_all_hit cache db ids hM]
    have hall := missEmpty_all_hit cache ids hM
    have h1 : ids.filter (fun i => (cache i).isSome) = ids :=
      List.filter_eq_self.mpr hall
    have h2 : ids.filter (nodeFound cache db) = ids :=
      List.filter_eq_self.mpr (fun i hi => by simp [nodeFound, hall i hi])
    show (ids.filter (fun i => (cache i).isSome)).length
      = (ids.filter (nodeFound cache db)).length
    rw [h1, h2]
  · by_cases hF : foundCount cache db ids = ids.length
    · rw [lngl_full cache db ids hM hF]
      exact foundCount_eq cache db ids
    · rw [lngl_pack cache db ids hM hF]
      exact foundCount_eq cache db ids

/-- The out array keeps the request length, in every branch. -/
theorem lngl_len (cache db : Int → Option Coord) (ids : List Int) :
    (local_nodes_get_list cache db ids).1.length = ids.length := by
  have hslen : (scatterOut cache db ids).length = ids.length := by
    rw [scatterOut_eq]
    exact List.length_map ids (nodeCoord cache db)
  by_cases hM : (missList cache ids).isEmpty
  · rw [lngl_all_hit cache db ids hM]
    exact List.length_map ids cache
  · by_cases hF : foundCount cache db ids = ids.length
    · rw [lngl_full cache db ids hM hF]
      exact hslen
    · rw [lngl_pack cache db ids hM hF]
      show (((scatterOut cache db ids).filterMap (fun c => c)).map some
            ++ (scatterOut cache db ids).drop (foundCount cache db ids)).length
        = ids.length
      rw [List.length_append, lngl_pack_eq, List.length_map, List.length_drop,
        hslen, foundCount_eq]
      exact Nat.add_sub_cancel' (List.length_filter_le (nodeFound cache db) ids)

/-- The first `count` positions are the found coordinates in request order, in
every branch. -/
theorem lngl_take (cache db : Int → Option Coord) (ids : List Int) :
    (local_nodes_get_list cache db ids).1.take (local_nodes_get_list cache db ids).2
      = (ids.filter (nodeFound cache db)).map (nodeCoord cache db) := by
  by_cases hM : (missList cache ids).isEmpty
  · rw [lngl_all_hit cache db ids hM]
    have hall := missEmpty_all_hit cache ids hM
    have h1 : ids.filter (fun i => (cache i).isSome) = ids :=
      List.filter_eq_self.mpr hall
    have h2 : ids.filter (nodeFound cache db) = ids :=
      List.filter_eq_self.mpr (fun i hi => by simp [nodeFound, hall i hi])
    show (ids.map cache).take (ids.filter (fun i => (cache i).isSome)).length
      = (ids.filter (nodeFound cache db)).map (nodeCoord cache db)
    rw [h1, h2, map_cache_eq_nodeCoord cache db ids hall]
    have hlen : (ids.map (nodeCoord cache db)).length = ids.length :=
      List.length_map ids (nodeCoord cache db)
    rw [← hlen, List.take_length]
  · by_cases hF : foundCount cache db ids = ids.length
    · rw [lngl_full cache db ids hM hF]
      show (scatterOut cache db ids).take (foundCount cache db ids)
        = (ids.filter (nodeFound cache db)).map (nodeCoord cache db)
      have h2 : ids.filter (nodeFound cache db) = ids :=
        filter_eq_self_of_length _ _ (by rw [← foundCount_eq cache db ids]; exact hF)
      rw [scatterOut_eq, hF, h2]
      have hlen : (ids.map (nodeCoord cache db)).length = ids.length :=
        List.length_map ids (nodeCoord cache db)
      rw [← hlen, List.take_length]
    · rw [lngl_pack cache db ids hM hF]
      have hplen : (((scatterOut cache db ids).filterMap (fun c => c)).map some).length
          = foundCount cache db ids := by
        rw [lngl_pack_eq, List.length_map, foundCount_eq]
      show ((((scatterOut cache db ids).filterMap (fun c => c)).map some
            ++ (scatterOut cache db ids).drop (foundCount cache db ids)).take
              (foundCount cache db ids))
        = (ids.filter (nodeFound cache db)).map (nodeCoord cache db)
      rw [← hplen, List.take_left]
      exact lngl_pack_eq cache db ids

/-- When every id is found, the count is `nd_count` and the out array maps
positionally. -/
theorem lngl_total (cache db : Int → Option Coord) (ids : List Int)
    (hallf : ∀ i ∈ ids, nodeFound cache db i = true) :
    (local_nodes_get_list cache db ids).2 = ids.length
    ∧ (local_nodes_get_list cache db ids).1 = ids.map (nodeCoord cache db) := by
  have hfeq : ids.filter (nodeFound cache db) = ids := List.filter_eq_self.mpr hallf
  refine ⟨by rw [lngl_snd cache db ids, hfeq], ?_⟩
  by_cases hM : (missList cache ids).isEmpty
  · rw [lngl_all_hit cache db ids hM]
    exact map_cache_eq_nodeCoord cache db ids (missEmpty_all_hit cache ids hM)
  · have hF : foundCount cache db ids = ids.length := by
      rw [foundCount_eq cache db ids, hfeq]
    rw [lngl_full cache db ids hM hF]
    exact scatterOut_eq cache db ids

/-- Claim C4: `local_nodes_get_list` fills `out[]` from the RAM cache first
and then one batched store lookup; the returned count is the number of ids
that exist; the first `count` positions are the found coordinates in request
order (left-packed when some ids are missing); and when every id is found the
count equals `nd_count` and `out[i]` holds the coordinate of `ids[i]`. -/
theorem local_nodes_get_list_spec (cache db : Int → Option Coord) (ids : List Int) :
    (local_nodes_get_list cache db ids).2 = (ids.filter (nodeFound cache db)).length
    ∧ (local_nodes_get_list cache db ids).1.length = ids.length
    ∧ (local_nodes_get_list cache db ids).1.take (local_nodes_get_list cache db ids).2
        = (ids.filter (nodeFound cache db)).map (nodeCoord cache db)
    ∧ ((∀ i ∈ ids, nodeFound cache db i = true) →
        (local_nodes_get_list cache db ids).2 = ids.length
        ∧ (local_nodes_get_list cache db ids).1 = ids.map (nodeCoord cache db)) :=
  ⟨lngl_snd cache db ids, lngl_len cache db ids, lngl_take cache db ids,
    lngl_total cache db ids⟩


/-- Witness for `local_nodes_get_list_spec`: id 1 is a cache hit and id 2 a
store hit, so both are found, the count is 2 and `out` maps positionally. -/
theorem local_nodes_get_list_spec_witness :
    (local_nodes_get_list (fun i => if i = 1 then some (10, 11) else none)
        (fun i => if i = 2 then some (20, 21) else none) [1, 2]).2 = 2
    ∧ (local_nodes_get_list (fun i => if i = 1 then some (10, 11) else none)
        (fun i => if i = 2 then some (20, 21) else none) [1, 2]).1
      = [some (10, 11), some (20, 21)] := by
  have h := (local_nodes_get_list_spec (fun i => if i = 1 then some (10, 11) else none)
      (fun i => if i = 2 then some (20, 21) else none) [1, 2]).2.2.2 (by decide)
  refine ⟨h.1, ?_⟩
  rw [h.2]
  decide

/-! ## Streaming-copy exclusion (claim C6) -/

/-- The three staging tables, each owning one connection. -/
inductive Tbl where
  | node
  | way
  | rel

/-- The per-table copy-mode flags (`table_desc::copyMode`). -/
structure Modes where
  node : Bool
  way : Bool
  rel : Bool

/-- Read a table's copy-mode flag. -/
def Modes.get (m : Modes) : Tbl → Bool
  | .node => m.node
  | .way => m.way
  | .rel => m.rel

/-- Write a table's copy-mode flag. -/
def Modes.set (m : Modes) : Tbl → Bool → Modes
  | .node, b => { m with node := b }
  | .way, b => { m with way := b }
  | .rel, b => { m with rel := b }

/-- The connection-level actions relevant to the exclusion invariant:
`pgsql_endCopy(table)`, `pgsql_execPrepared` on the table's connection, and
`pgsql_CopyData` on the table's connection. -/
inductive Act where
  | endCopy (t : Tbl)
  | execP (t : Tbl)
  | copyRow (t : Tbl)

/-- Mode evolution: `pgsql_endCopy` forces the table out of copy mode (a
no-op when already idle); the other actions leave the mode unchanged. -/
def stepMode (m : Modes) : Act → Modes
  | .endCopy t => m.set t false
  | .execP _ => m
  | .copyRow _ => m

/-- Replay a trace of actions over the mode flags. -/
def applyActs (m : Modes) (l : List Act) : Modes := l.foldl stepMode m

/-- Trace safety from the given modes: every `exec_prepared` finds its table
out of copy mode (the exclusion of claim C6), and every `copy_row` finds its
table in copy mode. -/
def safe (m : Modes) : List Act → Bool
  | [] => true
  | .endCopy t :: rest => safe (m.set t false) rest
  | .execP t :: rest => !(m.get t) && safe m rest
  | .copyRow t :: rest => m.get t && safe m rest

/-- The middle-layer operations of `middle-pgsql.cpp`, reduced to the
copy/prepared actions they perform on the three connections.  Data-dependent
branches appear as parameters: the `*_set` operations stream a copy row while
their table is in copy mode and use the prepared insert otherwise; `flat` on
the node write/delete path selects the flat-node-cache branch, which touches
no connection; `nodesGetList hasMiss` issues its batched query (preceded by
`pgsql_endCopy`) only when some id missed the RAM cache; `waysGet found
hasMiss` resolves coordinates through `nodes_get_list` only when the way row
exists; `waysGetList` and `iterateWays` take one `(found, hasMiss)` pair per
processed way; `iterateRelations` takes the number of drained relations. -/
inductive MidOp where
  | nodesSet (flat : Bool)
  | nodesGetList (hasMiss : Bool)
  | nodesDelete (flat : Bool)
  | nodeChanged
  | waysSet
  | waysGet (found : Bool) (hasMiss : Bool)
  | waysGetList (inner : List Bool)
  | waysDelete
  | wayChanged
  | relationsSet
  | relationsGet
  | relationsDelete
  | relationChanged
  | relationsUsingWay
  | iterateWays (inner : List (Bool × Bool))
  | iterateRelations (n : Nat)
  | commitOp

/-- Trace of `local_nodes_get_list`: `pgsql_endCopy(node_table)` and the
batched `get_node_list`, only when a miss must be fetched from the store. -/
def nodesGetListTrace (hasMiss : Bool) : List Act :=
  if hasMiss then [.endCopy .node, .execP .node] else []

/-- Trace of `ways_get`: `pgsql_endCopy(way_table)`, prepared `get_way`, and,
when the row exists, the `nodes_get_list` resolution. -/
def waysGetTrace (found hasMiss : Bool) : List Act :=
  [.endCopy .way, .execP .way] ++ (if found then nodesGetListTrace hasMiss else [])

/-- The action trace of one middle operation, transcribed from the source
bodies; the `*_set` branches read the current copy mode. -/
def opTrace (m : Modes) : MidOp → List Act
  | .nodesSet flat =>
      if flat then [] else if m.node then [.copyRow .node] else [.execP .node]
  | .nodesGetList hasMiss => nodesGetListTrace hasMiss
  | .nodesDelete flat => if flat then [] else [.endCopy .node, .execP .node]
  | .nodeChanged => [.endCopy .way, .endCopy .rel, .execP .way, .execP .rel]
  | .waysSet => if m.way then [.copyRow .way] else [.execP .way]
  | .waysGet found hasMiss => waysGetTrace found hasMiss
  | .waysGetList inner =>
      [.endCopy .way, .execP .way] ++ inner.flatMap nodesGetListTrace
  | .waysDelete => [.endCopy .way, .execP .way]
  | .wayChanged => [.endCopy .rel, .execP .rel]
  | .relationsSet => if m.rel then [.copyRow .rel] else [.execP .rel]
  | .relationsGet => [.endCopy .rel, .execP .rel]
  | .relationsDelete => [.endCopy .way, .endCopy .rel, .execP .rel, .execP .way]
  | .relationChanged => [.endCopy .rel, .execP .rel]
  | .relationsUsingWay => [.endCopy .rel, .execP .rel]
  | .iterateWays inner =>
      [.endCopy .way] ++ inner.flatMap (fun p => waysGetTrace p.1 p.2)
  | .iterateRelations n =>
      [.endCopy .rel] ++ (List.range n).flatMap (fun _ => [.endCopy .rel, .execP .rel])
  | .commitOp => [.endCopy .node, .endCopy .way, .endCopy .rel]

/-- Safety of a concatenation splits at the join point. -/
theorem safe_append (a : List Act) : ∀ (m : Modes) (b : List Act),
    safe m (a ++ b) = (safe m a && safe (applyActs m a) b) := by
  induction a with
  | nil => intro m b; simp [safe, applyActs]
  | cons x rest ih =>
      intro m b
      cases x with
      | endCopy t =>
          simp only [List.cons_append, safe, List.append_eq, ih, applyActs,
            List.foldl_cons, stepMode]
      | execP t =>
          simp only [List.cons_append, safe, List.append_eq, ih, applyActs,
            List.foldl_cons, stepMode, Bool.and_assoc]
      | copyRow t =>
          simp only [List.cons_append, safe, List.append_eq, ih, applyActs,
            List.foldl_cons, stepMode, Bool.and_assoc]

/-- A concatenation of chunks each safe from every mode state is safe from
every mode state. -/
theorem safe_flatMap {α : Type} (f : α → List Act)
    (hf : ∀ (x : α) (m : Modes), safe m (f x) = true) :
    ∀ (l : List α) (m : Modes), safe m (l.flatMap f) = true := by
  intro l
  induction l with
  | nil => intro m; rfl
  | cons x rest ih =>
      intro m
      rw [List.flatMap_cons, safe_append, hf x m, ih]
      rfl

/-- `nodes_get_list` is safe from any mode state. -/
theorem nodesGetListTrace_safe (hasMiss : Bool) (m : Modes) :
    safe m (nodesGetListTrace hasMiss) = true := by
  cases hasMiss <;> simp [nodesGetListTrace, safe, Modes.set, Modes.get]

/-- `ways_get` is safe from any mode state. -/
theorem waysGetTrace_safe (found hasMiss : Bool) (m : Modes) :
    safe m (waysGetTrace found hasMiss) = true := by
  rcases m with ⟨n, w, r⟩
  cases found <;> cases hasMiss <;>
    cases n <;> cases w <;> cases r <;>
      simp [waysGetTrace, nodesGetListTrace, safe, Modes.set, Modes.get]

/-- Every single middle operation is safe from any mode state: each path that
reaches an `exec_prepared` on a table either ended that table's copy first or
branched on the table not being in copy mode. -/
theorem opTrace_safe (op : MidOp) (m : Modes) : safe m (opTrace m op) = true := by
  cases op with
  | nodesSet flat =>
      rcases m with ⟨n, w, r⟩
      cases flat <;> cases n <;> simp [opTrace, safe, Modes.get]
  | nodesGetList hasMiss => exact nodesGetListTrace_safe hasMiss m
  | nodesDelete flat =>
      cases flat <;> simp [opTrace, safe, Modes.set, Modes.get]
  | nodeChanged =>
      rcases m with ⟨n, w, r⟩
      simp [opTrace, safe, Modes.set, Modes.get]
  | waysSet =>
      rcases m with ⟨n, w, r⟩
      cases w <;> simp [opTrace, safe, Modes.get]
  | waysGet found hasMiss => exact waysGetTrace_safe found hasMiss m
  | waysGetList inner =>
      rw [opTrace, safe_append]
      have hfm := safe_flatMap nodesGetListTrace nodesGetListTrace_safe inner
        (applyActs m [Act.endCopy Tbl.way, Act.execP Tbl.way])
      rw [hfm]
      rcases m with ⟨n, w, r⟩
      simp [safe, Modes.set, Modes.get]
  | waysDelete => simp [opTrace, safe, Modes.set, Modes.get]
  | wayChanged => simp [opTrace, safe, Modes.set, Modes.get]
  | relationsSet =>
      rcases m with ⟨n, w, r⟩
      cases r <;> simp [opTrace, safe, Modes.get]
  | relationsGet => simp [opTrace, safe, Modes.set, Modes.get]
  | relationsDelete => simp [opTrace, safe, Modes.set, Modes.get]
  | relationChanged => simp [opTrace, safe, Modes.set, Modes.get]
  | relationsUsingWay => simp [opTrace, safe, Modes.set, Modes.get]
  | iterateWays inner =>
      rw [opTrace, safe_append]
      have hfm := safe_flatMap (fun p : Bool × Bool => waysGetTrace p.1 p.2)
        (fun p m' => waysGetTrace_safe p.1 p.2 m') inner
        (applyActs m [Act.endCopy Tbl.way])
      rw [hfm]
      simp [safe, Modes.set, Modes.get]
  | iterateRelations n =>
      rw [opTrace, safe_append]
      have hfm := safe_flatMap (fun _ : Nat => ([.endCopy .rel, .execP .rel] : List Act))
        (fun _ m' => by simp [safe, Modes.set, Modes.get]) (List.range n)
        (applyActs m [Act.endCopy Tbl.rel])
      rw [hfm]
      simp [safe, Modes.set, Modes.get]
  | commitOp => simp [opTrace, safe, Modes.set, Modes.get]

/-- The full action trace of a sequence of middle operations, threading the
copy-mode state through the data-dependent branches. -/
def seqTrace : List MidOp → Modes → List Act
  | [], _ => []
  | op :: rest, m => opTrace m op ++ seqTrace rest (applyActs m (opTrace m op))

/-- Claim C6: in every sequence of middle-layer operations, started from any
per-table copy-mode state, no prepared statement is ever executed on a table
whose connection is still in streaming-copy mode: every path reaching
`exec_prepared` first ends any open copy on that table (or branched on the
table already being idle), and every `copy_row` happens in copy mode. -/
theorem exec_prepared_never_streaming (ops : List MidOp) :
    ∀ m : Modes, safe m (seqTrace ops m) = true := by
  induction ops with
  | nil => intro m; rfl
  | cons op rest ih =>
      intro m
      rw [seqTrace, safe_append, opTrace_safe op m, ih (applyActs m (opTrace m op))]
      rfl

/-! ## Template substitution (`set_prefix_and_tbls`, claim C7) -/

/-- The options consulted by `set_prefix_and_tbls`: the schema name for `%p`
(`options->prefix`), the optional data and index tablespaces for `%t` and
`%i` (`options->tblsslim_data`, `options->tblsslim_index`), and the
`UNLOGGED` flag for `%m` (`options->unlogged`). -/
structure SubstOpts where
  pfx : List Char
  tblsslim_data : Option (List Char)
  tblsslim_index : Option (List Char)
  unlogged : Bool

/-- The word written for `%m` when `unlogged` is set. -/
def unloggedChars : List Char := ['U', 'N', 'L', 'O', 'G', 'G', 'E', 'D']

/-- The scanning state of `set_prefix_and_tbls`: the output written so far
(`dest`), the output position of the last `{` (`openbrace`, the source's
char pointer into the buffer), and whether a token substitution since then
produced text (`copied`). -/
structure SubstState where
  dest : List Char
  openbrace : Option Nat
  copied : Bool

/-- The character scan of `set_prefix_and_tbls`, one branch per arm of the
source loop: `{` records the rewind point and clears `copied`; `}` rewinds
the output to the recorded position unless `copied` (or no `{` was seen);
`%` followed by `p`/`t`/`i`/`m` appends the configured value and sets
`copied` when the option produced text (prefix non-empty, tablespace
configured, `unlogged` set), consuming both characters; any other character
— `%` before anything else included — is copied. -/
def substAux (o : SubstOpts) : List Char → SubstState → SubstState
  | [], st => st
  | c :: rest, st =>
      if c = '{' then
        substAux o rest ⟨st.dest, some st.dest.length, false⟩
      else if c = '}' then
        substAux o rest ⟨if st.copied then st.dest
          else match st.openbrace with
            | some i => st.dest.take i
            | none => st.dest,
          st.openbrace, st.copied⟩
      else if c = '%' then
        match rest with
        | [] => substAux o [] { st with dest := st.dest ++ [c] }
        | d :: rest2 =>
            if d = 'p' then
              if o.pfx.isEmpty then substAux o rest2 st
              else substAux o rest2 { st with dest := st.dest ++ o.pfx, copied := true }
            else if d = 't' then
              match o.tblsslim_data with
              | some v => substAux o rest2 { st with dest := st.dest ++ v, copied := true }
              | none => substAux o rest2 st
            else if d = 'i' then
              match o.tblsslim_index with
              | some v => substAux o rest2 { st with dest := st.dest ++ v, copied := true }
              | none => substAux o rest2 st
            else if d = 'm' then
              if o.unlogged then
                substAux o rest2 { st with dest := st.dest ++ unloggedChars, copied := true }
              else substAux o rest2 st
            else substAux o (d :: rest2) { st with dest := st.dest ++ [c] }
      else substAux o rest { st with dest := st.dest ++ [c] }

/-- `set_prefix_and_tbls`: run the scan over the template with an empty
output buffer and return the output. -/
def set_prefix_and_tbls (o : SubstOpts) (s : List Char) : List Char :=
  (substAux o s ⟨[], none, false⟩).dest

/-- Plain token replacement: what the scan writes for brace-free input.
`%p`, `%t`, `%i`, `%m` become the prefix, the data tablespace, the index
tablespace and the `UNLOGGED` word; everything else is copied. -/
def flatSubst (o : SubstOpts) : List Char → List Char
  | [] => []
  | c :: rest =>
      if c = '%' then
        match rest with
        | [] => [c]
        | d :: rest2 =>
            if d = 'p' then o.pfx ++ flatSubst o rest2
            else if d = 't' then (o.tblsslim_data.getD []) ++ flatSubst o rest2
            else if d = 'i' then (o.tblsslim_index.getD []) ++ flatSubst o rest2
            else if d = 'm' then (if o.unlogged then unloggedChars else []) ++ flatSubst o rest2
            else c :: flatSubst o (d :: rest2)
      else c :: flatSubst o rest

/-- Whether scanning sets `copied`: some token branch appended (prefix
non-empty, tablespace configured, or `unlogged` set). -/
def anyProduced (o : SubstOpts) : List Char → Bool
  | [] => false
  | c :: rest =>
      if c = '%' then
        match rest with
        | [] => false
        | d :: rest2 =>
            if d = 'p' then !o.pfx.isEmpty || anyProduced o rest2
            else if d = 't' then o.tblsslim_data.isSome || anyProduced o rest2
            else if d = 'i' then o.tblsslim_index.isSome || anyProduced o rest2
            else if d = 'm' then o.unlogged || anyProduced o rest2
            else anyProduced o (d :: rest2)
      else anyProduced o rest

/-- The claim's notion for brace regions: some token inside produced a
non-empty value. -/
def hasNonemptyToken (o : SubstOpts) : List Char → Bool
  | [] => false
  | c :: rest =>
      if c = '%' then
        match rest with
        | [] => false
        | d :: rest2 =>
            if d = 'p' then !o.pfx.isEmpty || hasNonemptyToken o rest2
            else if d = 't' then !(o.tblsslim_data.getD []).isEmpty || hasNonemptyToken o rest2
            else if d = 'i' then !(o.tblsslim_index.getD []).isEmpty || hasNonemptyToken o rest2
            else if d = 'm' then o.unlogged || hasNonemptyToken o rest2
            else hasNonemptyToken o (d :: rest2)
      else hasNonemptyToken o rest

/-- Containing no `%p`/`%t`/`%i`/`%m` token occurrence. -/
def tokenFree : List Char → Bool
  | [] => true
  | c :: rest =>
      if c = '%' then
        match rest with
        | [] => true
        | d :: rest2 =>
            if d = 'p' ∨ d = 't' ∨ d = 'i' ∨ d = 'm' then false
            else tokenFree (d :: rest2)
      else tokenFree rest

/-- Containing neither brace character. -/
def braceFree (s : List Char) : Prop := '{' ∉ s ∧ '}' ∉ s

/-- A tablespace option is either not configured or set to a non-empty
string. -/
def optNE : Option (List Char) → Prop
  | none => True
  | some v => v ≠ []

/-- One scan step at a plain character: copy it. -/
theorem substAux_copy (o : SubstOpts) (c : Char) (r : List Char) (st : SubstState)
    (h1 : ¬(c = '{')) (h2 : ¬(c = '}')) (h3 : ¬(c = '%')) :
    substAux o (c :: r) st = substAux o r { st with dest := st.dest ++ [c] } := by
  cases r with
  | nil => simp [substAux, h1, h2, h3]
  | cons d t => simp [substAux, h1, h2, h3]

/-- One scan step at a trailing `%`: copy it. -/
theorem substAux_pct_end (o : SubstOpts) (st : SubstState) :
    substAux o ['%'] st = { st with dest := st.dest ++ ['%'] } := rfl

/-- One scan step at `%` before a non-token character: copy the `%`. -/
theorem substAux_pct_other (o : SubstOpts) (d : Char) (r : List Char) (st : SubstState)
    (h1 : ¬(d = 'p')) (h2 : ¬(d = 't')) (h3 : ¬(d = 'i')) (h4 : ¬(d = 'm')) :
    substAux o ('%' :: d :: r) st
      = substAux o (d :: r) { st with dest := st.dest ++ ['%'] } := by
  simp [substAux, h1, h2, h3, h4]

/-- One scan step at `%p` with an empty prefix. -/
theorem substAux_tok_p_empty (o : SubstOpts) (h : o.pfx.isEmpty = true)
    (r : List Char) (st : SubstState) :
    substAux o ('%' :: 'p' :: r) st = substAux o r st := by
  obtain ⟨p, dat, idx, ul⟩ := o
  change p.isEmpty = true at h
  rw [List.isEmpty_iff] at h
  subst h
  rfl

/-- One scan step at `%p` with a non-empty prefix. -/
theorem substAux_tok_p_nonempty (o : SubstOpts) (h : o.pfx.isEmpty = false)
    (r : List Char) (st : SubstState) :
    substAux o ('%' :: 'p' :: r) st
      = substAux o r { st with dest := st.dest ++ o.pfx, copied := true } := by
  obtain ⟨p, dat, idx, ul⟩ := o
  change p.isEmpty = false at h
  cases p with
  | nil => exact absurd h (by simp)
  | cons a t => rfl

/-- One scan step at `%t` with a configured data tablespace. -/
theorem substAux_tok_t_some (o : SubstOpts) (v : List Char) (h : o.tblsslim_data = some v)
    (r : List Char) (st : SubstState) :
    substAux o ('%' :: 't' :: r) st
      = substAux o r { st with dest := st.dest ++ v, copied := true } := by
  obtain ⟨p, dat, idx, ul⟩ := o
  change dat = some v at h
  subst h
  rfl

/-- One scan step at `%t` with no data tablespace. -/
theorem substAux_tok_t_none (o : SubstOpts) (h : o.tblsslim_data = none)
    (r : List Char) (st : SubstState) :
    substAux o ('%' :: 't' :: r) st = substAux o r st := by
  obtain ⟨p, dat, idx, ul⟩ := o
  change dat = none at h
  subst h
  rfl

/-- One scan step at `%i` with a configured index tablespace. -/
theorem substAux_tok_i_some (o : SubstOpts) (v : List Char) (h : o.tblsslim_index = some v)
    (r : List Char) (st : SubstState) :
    substAux o ('%' :: 'i' :: r) st
      = substAux o r { st with dest := st.dest ++ v, copied := true } := by
  obtain ⟨p, dat, idx, ul⟩ := o
  change idx = some v at h
  subst h
  rfl

/-- One scan step at `%i` with no index tablespace. -/
theorem substAux_tok_i_none (o : SubstOpts) (h : o.tblsslim_index = none)
    (r : List Char) (st : SubstState) :
    substAux o ('%' :: 'i' :: r) st = substAux o r st := by
  obtain ⟨p, dat, idx, ul⟩ := o
  change idx = none at h
  subst h
  rfl

/-- One scan step at `%m` with `unlogged` set. -/
theorem substAux_tok_m_true (o : SubstOpts) (h : o.unlogged = true)
    (r : List Char) (st : SubstState) :
    substAux o ('%' :: 'm' :: r) st
      = substAux o r { st with dest := st.dest ++ unloggedChars, copied := true } := by
  obtain ⟨p, dat, idx, ul⟩ := o
  change ul = true at h
  subst h
  rfl

/-- One scan step at `%m` with `unlogged` unset. -/
theorem substAux_tok_m_false (o : SubstOpts) (h : o.unlogged = false)
    (r : List Char) (st : SubstState) :
    substAux o ('%' :: 'm' :: r) st = substAux o r st := by
  obtain ⟨p, dat, idx, ul⟩ := o
  change ul = false at h
  subst h
  rfl

/-- Unfolding equations of `flatSubst`, one per scan-step shape. -/
theorem flatSubst_pct_end (o : SubstOpts) : flatSubst o ['%'] = ['%'] := rfl

/-- Plain-character equation of `flatSubst`. -/
theorem flatSubst_copy (o : SubstOpts) (c : Char) (r : List Char) (h3 : ¬(c = '%')) :
    flatSubst o (c :: r) = c :: flatSubst o r := by
  cases r with
  | nil => simp [flatSubst, h3]
  | cons d t => simp [flatSubst, h3]

/-- Non-token `%` equation of `flatSubst`. -/
theorem flatSubst_pct_other (o : SubstOpts) (d : Char) (r : List Char)
    (h1 : ¬(d = 'p')) (h2 : ¬(d = 't')) (h3 : ¬(d = 'i')) (h4 : ¬(d = 'm')) :
    flatSubst o ('%' :: d :: r) = '%' :: flatSubst o (d :: r) := by
  simp [flatSubst, h1, h2, h3, h4]

/-- Token equations of `flatSubst`. -/
theorem flatSubst_tok_p (o : SubstOpts) (r : List Char) :
    flatSubst o ('%' :: 'p' :: r) = o.pfx ++ flatSubst o r := rfl

/-- Token equation of `flatSubst` for `%t`. -/
theorem flatSubst_tok_t (o : SubstOpts) (r : List Char) :
    flatSubst o ('%' :: 't' :: r) = (o.tblsslim_data.getD []) ++ flatSubst o r := rfl

/-- Token equation of `flatSubst` for `%i`. -/
theorem flatSubst_tok_i (o : SubstOpts) (r : List Char) :
    flatSubst o ('%' :: 'i' :: r) = (o.tblsslim_index.getD []) ++ flatSubst o r := rfl

/-- Token equation of `flatSubst` for `%m`. -/
theorem flatSubst_tok_m (o : SubstOpts) (r : List Char) :
    flatSubst o ('%' :: 'm' :: r)
      = (if o.unlogged then unloggedChars else []) ++ flatSubst o r := rfl

/-- Unfolding equations of `anyProduced`, one per scan-step shape. -/
theorem anyP_pct_end (o : SubstOpts) : anyProduced o ['%'] = false := rfl

/-- Plain-character equation of `anyProduced`. -/
theorem anyP_copy (o : SubstOpts) (c : Char) (r : List Char) (h3 : ¬(c = '%')) :
    anyProduced o (c :: r) = anyProduced o r := by
  cases r with
  | nil => simp [anyProduced, h3]
  | cons d t => simp [anyProduced, h3]

/-- Non-token `%` equation of `anyProduced`. -/
theorem anyP_pct_other (o : SubstOpts) (d : Char) (r : List Char)
    (h1 : ¬(d = 'p')) (h2 : ¬(d = 't')) (h3 : ¬(d = 'i')) (h4 : ¬(d = 'm')) :
    anyProduced o ('%' :: d :: r) = anyProduced o (d :: r) := by
  simp [anyProduced, h1, h2, h3, h4]

/-- Token equation of `anyProduced` for `%p`. -/
theorem anyP_tok_p (o : SubstOpts) (r : List Char) :
    anyProduced o ('%' :: 'p' :: r) = (!o.pfx.isEmpty || anyProduced o r) := rfl

/-- Token equation of `anyProduced` for `%t`. -/
theorem anyP_tok_t (o : SubstOpts) (r : List Char) :
    anyProduced o ('%' :: 't' :: r) = (o.tblsslim_data.isSome || anyProduced o r) := rfl

/-- Token equation of `anyProduced` for `%i`. -/
theorem anyP_tok_i (o : SubstOpts) (r : List Char) :
    anyProduced o ('%' :: 'i' :: r) = (o.tblsslim_index.isSome || anyProduced o r) := rfl

/-- Token equation of `anyProduced` for `%m`. -/
theorem anyP_tok_m (o : SubstOpts) (r : List Char) :
    anyProduced o ('%' :: 'm' :: r) = (o.unlogged || anyProduced o r) := rfl

/-- Scanning a brace-free segment appends its token replacement to the output
and ors the produced flag into `copied`, then continues with the remainder
(when the segment ends in `%`, only a full consumption is claimed: the scan
would otherwise look across the boundary). -/
theorem substAux_flat_append (o : SubstOpts) :
    ∀ (n : Nat) (pre : List Char), pre.length ≤ n →
      ∀ (rest : List Char) (st : SubstState),
        braceFree pre →
        (pre.getLast? = some '%' → rest = []) →
        substAux o (pre ++ rest) st
          = substAux o rest
              ⟨st.dest ++ flatSubst o pre, st.openbrace, st.copied || anyProduced o pre⟩ := by
  intro n
  induction n with
  | zero =>
      intro pre hlen rest st hb _
      have hnil : pre = [] := List.eq_nil_of_length_eq_zero (Nat.le_zero.mp hlen)
      subst hnil
      simp [flatSubst, anyProduced]
  | succ k ih =>
      intro pre hlen rest st hb hl
      cases pre with
      | nil => simp [flatSubst, anyProduced]
      | cons c pre' =>
          have hc1 : ¬(c = '{') := fun h => hb.1 (h ▸ List.mem_cons_self c pre')
          have hc2 : ¬(c = '}') := fun h => hb.2 (h ▸ List.mem_cons_self c pre')
          have hb' : braceFree pre' := ⟨fun h => hb.1 (List.mem_cons_of_mem c h),
            fun h => hb.2 (List.mem_cons_of_mem c h)⟩
          by_cases hc3 : c = '%'
          · subst hc3
            cases pre' with
            | nil =>
                have hr : rest = [] := hl rfl
                subst hr
                rw [List.append_nil, substAux_pct_end, flatSubst_pct_end, anyP_pct_end,
                  Bool.or_false]
                rfl
            | cons d pre'' =>
                have hb'' : braceFree pre'' := ⟨fun h => hb'.1 (List.mem_cons_of_mem d h),
                  fun h => hb'.2 (List.mem_cons_of_mem d h)⟩
                have hl' : (d :: pre'').getLast? = some '%' → rest = [] := fun h =>
                  hl ((List.getLast?_cons_cons).trans h)
                have hl'' : pre''.getLast? = some '%' → rest = [] := by
                  intro h
                  cases pre'' with
                  | nil => simp at h
                  | cons e t => exact hl' ((List.getLast?_cons_cons).trans h)
                have hlen'' : pre''.length ≤ k :=
                  Nat.le_of_succ_le (Nat.le_of_succ_le_succ hlen)
                have hstep : ('%' :: d :: pre'') ++ rest = '%' :: d :: (pre'' ++ rest) := rfl
                by_cases hd1 : d = 'p'
                · subst hd1
                  rw [hstep, flatSubst_tok_p, anyP_tok_p]
                  cases hpfx : o.pfx.isEmpty with
                  | true =>
                      have hpnil : o.pfx = [] := List.isEmpty_iff.mp hpfx
                      rw [substAux_tok_p_empty o hpfx, ih pre'' hlen'' rest st hb'' hl'',
                        hpnil]
                      simp only [List.nil_append, Bool.not_true, Bool.false_or]
                  | false =>
                      rw [substAux_tok_p_nonempty o hpfx,
                        ih pre'' hlen'' rest _ hb'' hl'']
                      simp only [List.append_assoc, Bool.not_false, Bool.true_or,
                        Bool.or_true]
                · by_cases hd2 : d = 't'
                  · subst hd2
                    rw [hstep, flatSubst_tok_t, anyP_tok_t]
                    cases hdat : o.tblsslim_data with
                    | none =>
                        rw [substAux_tok_t_none o hdat,
                          ih pre'' hlen'' rest st hb'' hl'']
                        simp only [Option.getD_none, List.nil_append,
                          Option.isSome_none, Bool.false_or]
                    | some v =>
                        rw [substAux_tok_t_some o v hdat,
                          ih pre'' hlen'' rest _ hb'' hl'']
                        simp only [Option.getD_some, List.append_assoc,
                          Option.isSome_some, Bool.true_or, Bool.or_true]
                  · by_cases hd3 : d = 'i'
                    · subst hd3
                      rw [hstep, flatSubst_tok_i, anyP_tok_i]
                      cases hidx : o.tblsslim_index with
                      | none =>
                          rw [substAux_tok_i_none o hidx,
                            ih pre'' hlen'' rest st hb'' hl'']
                          simp only [Option.getD_none, List.nil_append,
                            Option.isSome_none, Bool.false_or]
                      | some v =>
                          rw [substAux_tok_i_some o v hidx,
                            ih pre'' hlen'' rest _ hb'' hl'']
                          simp only [Option.getD_some, List.append_assoc,
                            Option.isSome_some, Bool.true_or, Bool.or_true]
                    · by_cases hd4 : d = 'm'
                      · subst hd4
                        rw [hstep, flatSubst_tok_m, anyP_tok_m]
                        cases hun : o.unlogged with
                        | false =>
                            rw [substAux_tok_m_false o hun,
                              ih pre'' hlen'' rest st hb'' hl'']
                            simp only [Bool.false_eq_true, if_false, List.nil_append,
                              Bool.false_or]
                        | true =>
                            rw [substAux_tok_m_true o hun,
                              ih pre'' hlen'' rest _ hb'' hl'']
                            simp only [if_true, List.append_assoc, Bool.true_or,
                              Bool.or_true]
                      · rw [hstep, substAux_pct_other o d _ _ hd1 hd2 hd3 hd4,
                          flatSubst_pct_other o d _ hd1 hd2 hd3 hd4,
                          anyP_pct_other o d _ hd1 hd2 hd3 hd4]
                        have hlen' : (d :: pre'').length ≤ k :=
                          Nat.le_of_succ_le_succ hlen
                        rw [show (d :: (pre'' ++ rest)) = (d :: pre'') ++ rest from rfl,
                          ih (d :: pre'') hlen' rest _ hb' hl']
                        simp only [List.append_assoc, List.singleton_append]
          · have hlen' : pre'.length ≤ k := Nat.le_of_succ_le_succ hlen
            have hl' : pre'.getLast? = some '%' → rest = [] := by
              intro h
              cases pre' with
              | nil => simp at h
              | cons e t => exact hl ((List.getLast?_cons_cons).trans h)
            rw [show (c :: pre') ++ rest = c :: (pre' ++ rest) from rfl,
              substAux_copy o c _ _ hc1 hc2 hc3,
              flatSubst_copy o c pre' hc3, anyP_copy o c pre' hc3,
              ih pre' hlen' rest _ hb' hl']
            simp only [List.append_assoc, List.singleton_append]

/-- One scan step at `{`: record the rewind point, clear `copied`. -/
theorem substAux_open (o : SubstOpts) (rest : List Char) (st : SubstState) :
    substAux o ('{' :: rest) st
      = substAux o rest ⟨st.dest, some st.dest.length, false⟩ := by
  cases rest with
  | nil => rfl
  | cons d r => rfl

/-- One scan step at `}` with a recorded `{` position: rewind unless
`copied`. -/
theorem substAux_close_some (o : SubstOpts) (rest : List Char) (dest : List Char)
    (i : Nat) (cop : Bool) :
    substAux o ('}' :: rest) ⟨dest, some i, cop⟩
      = substAux o rest ⟨if cop then dest else dest.take i, some i, cop⟩ := by
  cases rest with
  | nil => cases cop with
      | false => rfl
      | true => rfl
  | cons d r => cases cop with
      | false => rfl
      | true => rfl

/-- Scanning a brace-free string produces its token replacement. -/
theorem substAux_flat (o : SubstOpts) (s : List Char) (st : SubstState) (hb : braceFree s) :
    substAux o s st
      = ⟨st.dest ++ flatSubst o s, st.openbrace, st.copied || anyProduced o s⟩ := by
  have h := substAux_flat_append o s.length s le_rfl [] st hb (fun _ => rfl)
  simpa [substAux] using h

/-- Trailing-`%` equation of `hasNonemptyToken`. -/
theorem hasNE_pct_end (o : SubstOpts) : hasNonemptyToken o ['%'] = false := rfl

/-- Plain-character equation of `hasNonemptyToken`. -/
theorem hasNE_copy (o : SubstOpts) (c : Char) (r : List Char) (h3 : ¬(c = '%')) :
    hasNonemptyToken o (c :: r) = hasNonemptyToken o r := by
  cases r with
  | nil => simp [hasNonemptyToken, h3]
  | cons d t => simp [hasNonemptyToken, h3]

/-- Non-token `%` equation of `hasNonemptyToken`. -/
theorem hasNE_pct_other (o : SubstOpts) (d : Char) (r : List Char)
    (h1 : ¬(d = 'p')) (h2 : ¬(d = 't')) (h3 : ¬(d = 'i')) (h4 : ¬(d = 'm')) :
    hasNonemptyToken o ('%' :: d :: r) = hasNonemptyToken o (d :: r) := by
  simp [hasNonemptyToken, h1, h2, h3, h4]

/-- Token equation of `hasNonemptyToken` for `%p`. -/
theorem hasNE_tok_p (o : SubstOpts) (r : List Char) :
    hasNonemptyToken o ('%' :: 'p' :: r)
      = (!o.pfx.isEmpty || hasNonemptyToken o r) := rfl

/-- Token equation of `hasNonemptyToken` for `%t`. -/
theorem hasNE_tok_t (o : SubstOpts) (r : List Char) :
    hasNonemptyToken o ('%' :: 't' :: r)
      = (!(o.tblsslim_data.getD []).isEmpty || hasNonemptyToken o r) := rfl

/-- Token equation of `hasNonemptyToken` for `%i`. -/
theorem hasNE_tok_i (o : SubstOpts) (r : List Char) :
    hasNonemptyToken o ('%' :: 'i' :: r)
      = (!(o.tblsslim_index.getD []).isEmpty || hasNonemptyToken o r) := rfl

/-- Token equation of `hasNonemptyToken` for `%m`. -/
theorem hasNE_tok_m (o : SubstOpts) (r : List Char) :
    hasNonemptyToken o ('%' :: 'm' :: r)
      = (o.unlogged || hasNonemptyToken o r) := rfl

/-- Plain-character equation of `tokenFree`. -/
theorem tokenFree_copy (c : Char) (r : List Char) (h : ¬(c = '%')) :
    tokenFree (c :: r) = tokenFree r := by
  cases r with
  | nil => simp [ tokenFree, h]
  | cons d t => simp [ tokenFree, h]

/-- Non-token `%` equation of `tokenFree`. -/
theorem tokenFree_pct_other (d : Char) (r : List Char)
    (h : ¬(d = 'p' ∨ d = 't' ∨ d = 'i' ∨ d = 'm')) :
    tokenFree ('%' :: d :: r) = tokenFree (d :: r) := by
  simp [ tokenFree, h]

/-- For an unset-or-non-empty option, being set coincides with the default
expansion being non-empty. -/
theorem optNE_isSome_eq (t : Option (List Char)) (h : optNE t) :
    t.isSome = !(t.getD []).isEmpty := by
  cases t with
  | none => rfl
  | some v =>
      cases v with
      | nil => exact absurd rfl h
      | cons a r => rfl

/-- Under unset-or-non-empty tablespace options, the scan's produced flag is
the claim's has-a-non-empty-token test. -/
theorem anyProduced_eq_hasNonemptyToken (o : SubstOpts)
    (hd : optNE o.tblsslim_data) (hi : optNE o.tblsslim_index) :
    ∀ (n : Nat) (s : List Char), s.length ≤ n →
      anyProduced o s = hasNonemptyToken o s := by
  intro n
  induction n with
  | zero =>
      intro s hlen
      have hnil : s = [] := List.eq_nil_of_length_eq_zero (Nat.le_zero.mp hlen)
      subst hnil
      rfl
  | succ k ih =>
      intro s hlen
      cases s with
      | nil => rfl
      | cons c rest =>
          have hlenr : rest.length ≤ k := Nat.le_of_succ_le_succ hlen
          by_cases hc : c = '%'
          · subst hc
            cases rest with
            | nil => rw [anyP_pct_end, hasNE_pct_end]
            | cons d rest2 =>
                have hlen2 : rest2.length ≤ k := Nat.le_of_succ_le hlenr
                by_cases h1 : d = 'p'
                · subst h1
                  rw [anyP_tok_p, hasNE_tok_p, ih rest2 hlen2]
                · by_cases h2 : d = 't'
                  · subst h2
                    rw [anyP_tok_t, hasNE_tok_t, ih rest2 hlen2,
                      optNE_isSome_eq o.tblsslim_data hd]
                  · by_cases h3 : d = 'i'
                    · subst h3
                      rw [anyP_tok_i, hasNE_tok_i, ih rest2 hlen2,
                        optNE_isSome_eq o.tblsslim_index hi]
                    · by_cases h4 : d = 'm'
                      · subst h4
                        rw [anyP_tok_m, hasNE_tok_m, ih rest2 hlen2]
                      · rw [anyP_pct_other o d rest2 h1 h2 h3 h4,
                          hasNE_pct_other o d rest2 h1 h2 h3 h4,
                          ih (d :: rest2) hlenr]
          · rw [anyP_copy o c rest hc, hasNE_copy o c rest hc, ih rest hlenr]

/-- On token-free input the replacement map is the identity. -/
theorem flatSubst_tokenFree (o : SubstOpts) :
    ∀ (n : Nat) (s : List Char), s.length ≤ n → tokenFree s = true →
      flatSubst o s = s := by
  intro n
  induction n with
  | zero =>
      intro s hlen _
      have hnil : s = [] := List.eq_nil_of_length_eq_zero (Nat.le_zero.mp hlen)
      subst hnil
      rfl
  | succ k ih =>
      intro s hlen ht
      cases s with
      | nil => rfl
      | cons c rest =>
          have hlenr : rest.length ≤ k := Nat.le_of_succ_le_succ hlen
          by_cases hc : c = '%'
          · subst hc
            cases rest with
            | nil => rw [flatSubst_pct_end]
            | cons d rest2 =>
                have hd : ¬(d = 'p' ∨ d = 't' ∨ d = 'i' ∨ d = 'm') := by
                  intro hcon
                  simp [ tokenFree, hcon] at ht
                rw [tokenFree_pct_other d rest2 hd] at ht
                push_neg at hd
                rw [flatSubst_pct_other o d rest2 hd.1 hd.2.1 hd.2.2.1 hd.2.2.2,
                  ih (d :: rest2) hlenr ht]
          · rw [tokenFree_copy c rest hc] at ht
            rw [flatSubst_copy o c rest hc, ih rest hlenr ht]

/-- Claim C7 (amended): `%p`/`%t`/`%i`/`%m` are replaced by the configured
prefix, data tablespace, index tablespace and `UNLOGGED` word; a
brace-delimited region is kept (without the braces) exactly when some token
inside it produced a non-empty value — provided the tablespace options are
unset or non-empty — and is erased entirely otherwise; on brace-free
strings the scan is exactly token replacement (so `%` followed by any other
non-brace character passes through unchanged); and the substitution is the
identity on strings containing neither tokens nor braces. -/
theorem set_prefix_and_tbls_spec (o : SubstOpts) (pre mid post : List Char)
    (hbpre : braceFree pre) (hbmid : braceFree mid) (hbpost : braceFree post)
    (hpre : pre.getLast? ≠ some '%') (hmid : mid.getLast? ≠ some '%')
    (hdata : optNE o.tblsslim_data) (hindex : optNE o.tblsslim_index) :
    set_prefix_and_tbls o (pre ++ '{' :: (mid ++ '}' :: post))
      = flatSubst o pre
        ++ ((if hasNonemptyToken o mid then flatSubst o mid else []) ++ flatSubst o post)
    ∧ (∀ s : List Char, braceFree s → set_prefix_and_tbls o s = flatSubst o s)
    ∧ (∀ s : List Char, braceFree s → tokenFree s = true → set_prefix_and_tbls o s = s) := by
  have hflat : ∀ s : List Char, braceFree s → set_prefix_and_tbls o s = flatSubst o s := by
    intro s hb
    unfold set_prefix_and_tbls
    rw [substAux_flat o s _ hb]
    simp
  refine ⟨?_, hflat, ?_⟩
  · unfold set_prefix_and_tbls
    rw [substAux_flat_append o pre.length pre le_rfl _ _ hbpre (fun h => absurd h hpre)]
    rw [substAux_open]
    simp only [List.nil_append, Bool.false_or]
    rw [substAux_flat_append o mid.length mid le_rfl _ _ hbmid (fun h => absurd h hmid)]
    simp only [Bool.false_or]
    rw [substAux_close_some]
    rw [substAux_flat o post _ hbpost]
    rw [← anyProduced_eq_hasNonemptyToken o hdata hindex mid.length mid le_rfl]
    cases hne : anyProduced o mid with
    | true => simp [List.append_assoc]
    | false => simp [List.take_left]
  · intro s hb ht
    rw [hflat s hb, flatSubst_tokenFree o s.length s le_rfl ht]

/-- Claim C7, counterexample: `%` followed by `{` is not passed through — the
brace is consumed as a region delimiter, so `"%{"` becomes `"%"`. -/
theorem set_prefix_and_tbls_brace_counterexample :
    set_prefix_and_tbls ⟨[], none, none, false⟩ ['%', '{'] = ['%']
    ∧ set_prefix_and_tbls ⟨[], none, none, false⟩ ['%', '{'] ≠ ['%', '{'] := by
  decide

/-- Witness for `set_prefix_and_tbls_spec`: options `pfx="o"`, data
tablespace `"d"`; the region `{%t}` around the configured tablespace is
kept. -/
theorem set_prefix_and_tbls_spec_witness :
    set_prefix_and_tbls ⟨['o'], some ['d'], none, false⟩
        (['A'] ++ '{' :: (['%', 't'] ++ '}' :: ['B']))
      = flatSubst ⟨['o'], some ['d'], none, false⟩ ['A']
        ++ ((if hasNonemptyToken ⟨['o'], some ['d'], none, false⟩ ['%', 't']
            then flatSubst ⟨['o'], some ['d'], none, false⟩ ['%', 't'] else [])
          ++ flatSubst ⟨['o'], some ['d'], none, false⟩ ['B']) :=
  (set_prefix_and_tbls_spec ⟨['o'], some ['d'], none, false⟩ ['A'] ['%', 't'] ['B']
    (by constructor <;> decide) (by constructor <;> decide) (by constructor <;> decide)
    (by decide) (by decide) (show (['d'] : List Char) ≠ [] by decide) trivial).1

/-! ## The tag/array codec (`escape_tag`, `decode_upto`, claim C2) -/

/-- `escape_tag`: the escaping applied to each string written into an array
literal.  Double quote, backslash, newline, carriage return and tab are
escape-encoded; `escape` is the copy-mode flag, which doubles each written
backslash once more for the COPY channel. -/
def escape_tag (escape : Bool) : List Char → List Char
  | [] => []
  | c :: r =>
      (if c = '"' then (if escape then ['\\'] else []) ++ ['\\', '"']
       else if c = '\\' then (if escape then ['\\', '\\'] else []) ++ ['\\', '\\']
       else if c = '\n' then (if escape then ['\\'] else []) ++ ['\\', 'n']
       else if c = '\r' then (if escape then ['\\'] else []) ++ ['\\', 'r']
       else if c = '\t' then (if escape then ['\\'] else []) ++ ['\\', 't']
       else [c]) ++ escape_tag escape r

/-- The quoted element list written by `pgsql_store_tags` in
prepared-statement mode (`escape = 0`): each element `"`-quoted, elements
comma-separated. -/
def encodeElems : List Str → List Char
  | [] => []
  | [s] => '"' :: (escape_tag false s ++ ['"'])
  | s :: rest => '"' :: (escape_tag false s ++ '"' :: ',' :: encodeElems rest)

/-- The array literal built by `pgsql_store_tags` for a non-empty list, and
the store's NULL — read back as an empty string — for an empty one. -/
def encode_array (xs : List Str) : List Char :=
  if xs = [] then [] else '{' :: (encodeElems xs ++ ['}'])

/-- The quoted branch of `decode_upto` (after the opening quote): read up to
the closing quote; at a backslash, `\n` and `\t` become newline and tab and
any other escaped character becomes itself; other characters are copied.
Returns the decoded element and the input after the closing quote. -/
def decode_upto_q : List Char → Str × List Char
  | [] => ([], [])
  | c :: r =>
      if c = '"' then ([], r)
      else if c = '\\' then
        match r with
        | [] => ([], [])
        | c2 :: r2 =>
            let d := if c2 = 'n' then '\n' else if c2 = 't' then '\t' else c2
            let p := decode_upto_q r2
            (d :: p.1, p.2)
      else
        let p := decode_upto_q r
        (c :: p.1, p.2)

/-- The unquoted branch of `decode_upto`: read up to a comma or closing
brace, with the same escape handling. -/
def decode_upto_u : List Char → Str × List Char
  | [] => ([], [])
  | c :: r =>
      if c = ',' ∨ c = '}' then ([], c :: r)
      else if c = '\\' then
        match r with
        | [] => ([], [])
        | c2 :: r2 =>
            let d := if c2 = 'n' then '\n' else if c2 = 't' then '\t' else c2
            let p := decode_upto_u r2
            (d :: p.1, p.2)
      else
        let p := decode_upto_u r
        (c :: p.1, p.2)

/-- `decode_upto`: dispatch on an opening quote, as
`int quoted = (*src == '"'); if (quoted) src++;`. -/
def decode_upto (src : List Char) : Str × List Char :=
  if src.head? = some '"' then decode_upto_q src.tail else decode_upto_u src

/-- The element loop of `pgsql_parse_tags` for a whole array literal body:
stop at `}`; otherwise decode one element with `decode_upto`, skip a
following comma, and continue.  `fuel` bounds the iteration (the C loop runs
off the end on malformed input). -/
def decodeElemsAux : Nat → List Char → List Str
  | 0, _ => []
  | _ + 1, [] => []
  | fuel + 1, c :: r =>
      if c = '}' then []
      else
        let p := decode_upto (c :: r)
        let r2 := if p.2.head? = some ',' then p.2.tail else p.2
        p.1 :: decodeElemsAux fuel r2

/-- The array decoder: an empty value (the stored NULL) decodes to no
elements; a `{…}` literal decodes element-wise; anything else is not an
array literal and yields nothing (as `pgsql_parse_tags` returns without
adding items). -/
def decode_array (src : List Char) : List Str :=
  match src with
  | [] => []
  | '{' :: rest => decodeElemsAux (rest.length + 1) rest
  | _ => []

/-- One plain-character step of the quoted decoder. -/
theorem decode_upto_q_plain (c : Char) (r : List Char) (h1 : ¬(c = '"')) (h2 : ¬(c = '\\')) :
    decode_upto_q (c :: r) = ((decode_upto_q r).1.cons c, (decode_upto_q r).2) := by
  cases r with
  | nil => simp [decode_upto_q, h1, h2]
  | cons d t => simp [decode_upto_q, h1, h2]

/-- Encoder equations for the four escape-encoded characters (no outer
escaping, `escape = 0`). -/
theorem escape_tag_quote (r : List Char) :
    escape_tag false ('"' :: r) = '\\' :: '"' :: escape_tag false r := rfl

/-- Encoder equation for a backslash. -/
theorem escape_tag_backslash (r : List Char) :
    escape_tag false ('\\' :: r) = '\\' :: '\\' :: escape_tag false r := rfl

/-- Encoder equation for a newline. -/
theorem escape_tag_newline (r : List Char) :
    escape_tag false ('\n' :: r) = '\\' :: 'n' :: escape_tag false r := rfl

/-- Encoder equation for a tab. -/
theorem escape_tag_tab (r : List Char) :
    escape_tag false ('\t' :: r) = '\\' :: 't' :: escape_tag false r := rfl

/-- One escaped-pair step of the quoted decoder: `\n` and `\t` become newline
and tab, any other escaped character becomes itself. -/
theorem decode_upto_q_esc (c2 : Char) (r2 : List Char) :
    decode_upto_q ('\\' :: c2 :: r2)
      = ((if c2 = 'n' then '\n' else if c2 = 't' then '\t' else c2)
            :: (decode_upto_q r2).1,
        (decode_upto_q r2).2) := rfl

/-- The quoted decoder inverts `escape_tag false` up to the closing quote,
for strings without a carriage return. -/
theorem decode_upto_q_escape (s : List Char) (hr : '\r' ∉ s) (rest : List Char) :
    decode_upto_q (escape_tag false s ++ '"' :: rest) = (s, rest) := by
  induction s with
  | nil =>
      show decode_upto_q ('"' :: rest) = ([], rest)
      cases rest with
      | nil => rfl
      | cons d t => rfl
  | cons c r ih =>
      have hr' : '\r' ∉ r := fun h => hr (List.mem_cons_of_mem c h)
      have hcr : ¬(c = '\r') := fun h => hr (h ▸ List.mem_cons_self c r)
      have ihr := ih hr'
      by_cases h1 : c = '"'
      · subst h1
        rw [escape_tag_quote, List.cons_append, List.cons_append,
          decode_upto_q_esc, ihr]
        rfl
      · by_cases h2 : c = '\\'
        · subst h2
          rw [escape_tag_backslash, List.cons_append, List.cons_append,
            decode_upto_q_esc, ihr]
          rfl
        · by_cases h3 : c = '\n'
          · subst h3
            rw [escape_tag_newline, List.cons_append, List.cons_append,
              decode_upto_q_esc, ihr]
            rfl
          · by_cases h4 : c = '\t'
            · subst h4
              rw [escape_tag_tab, List.cons_append, List.cons_append,
                decode_upto_q_esc, ihr]
              rfl
            · rw [show escape_tag false (c :: r) = [c] ++ escape_tag false r from by
                simp [escape_tag, h1, h2, h3, h4, hcr]]
              rw [List.append_assoc]
              rw [show ([c] ++ (escape_tag false r ++ '"' :: rest))
                  = c :: (escape_tag false r ++ '"' :: rest) from rfl]
              rw [decode_upto_q_plain c _ h1 h2, ihr]

/-- One loop step of `decodeElemsAux` at a non-`}` character. -/
theorem decodeElemsAux_step (f : Nat) (c : Char) (r : List Char) (h : ¬(c = '}')) :
    decodeElemsAux (f + 1) (c :: r)
      = (decode_upto (c :: r)).1
        :: decodeElemsAux f
          (if (decode_upto (c :: r)).2.head? = some ',' then (decode_upto (c :: r)).2.tail
           else (decode_upto (c :: r)).2) := by
  simp [decodeElemsAux, h]

/-- Termination step of `decodeElemsAux` at the closing brace. -/
theorem decodeElemsAux_close (f : Nat) : decodeElemsAux (f + 1) ['}'] = [] := rfl

/-- `decode_upto` takes the quoted branch after an opening quote. -/
theorem decode_upto_quoted (r : List Char) :
    decode_upto ('"' :: r) = decode_upto_q r := rfl

/-- The element loop inverts the element encoder on every non-empty list of
carriage-return-free strings, given enough fuel. -/
theorem decodeElemsAux_encode (xs : List Str) :
    ∀ (fuel : Nat), xs.length < fuel → (∀ s ∈ xs, '\r' ∉ s) →
      decodeElemsAux fuel (encodeElems xs ++ ['}']) = xs := by
  induction xs with
  | nil =>
      intro fuel hf _
      match fuel, hf with
      | f + 1, _ => simp [encodeElems, decodeElemsAux]
  | cons s rest ih =>
      intro fuel hf hr
      have hrs : '\r' ∉ s := hr s (List.mem_cons_self s rest)
      match fuel, hf with
      | f + 1, hf =>
          cases rest with
          | nil =>
              have hf1 : 1 ≤ f := Nat.lt_succ_iff.mp hf
              match f, hf1 with
              | g + 1, _ =>
                  rw [show encodeElems [s] ++ ['}']
                      = '"' :: (escape_tag false s ++ '"' :: ['}']) from by
                    simp [encodeElems]]
                  rw [decodeElemsAux_step (g + 1) '"' _ (by decide), decode_upto_quoted,
                    decode_upto_q_escape s hrs]
                  show s :: decodeElemsAux (g + 1) ['}'] = [s]
                  rw [decodeElemsAux_close g]
          | cons s2 rest2 =>
              have hlen : (s2 :: rest2).length < f := by
                simp only [List.length_cons] at hf ⊢
                omega
              have hr2 : ∀ t ∈ s2 :: rest2, '\r' ∉ t :=
                fun t ht => hr t (List.mem_cons_of_mem s ht)
              rw [show encodeElems (s :: s2 :: rest2) ++ ['}']
                  = '"' :: (escape_tag false s
                      ++ '"' :: (',' :: (encodeElems (s2 :: rest2) ++ ['}']))) from by
                simp [encodeElems]]
              rw [decodeElemsAux_step f '"' _ (by decide), decode_upto_quoted,
                decode_upto_q_escape s hrs]
              show s :: decodeElemsAux f (encodeElems (s2 :: rest2) ++ ['}'])
                  = s :: s2 :: rest2
              rw [ih f hlen hr2]

/-- Element encoding does not shorten the list. -/
theorem encodeElems_length : ∀ xs : List Str, xs.length ≤ (encodeElems xs).length
  | [] => Nat.le.refl
  | [s] => by
      show 1 ≤ ('"' :: (escape_tag false s ++ ['"'])).length
      rw [List.length_cons]
      exact Nat.le_add_left 1 _
  | s :: s2 :: rest => by
      have ih := encodeElems_length (s2 :: rest)
      show (s :: s2 :: rest).length
        ≤ ('"' :: (escape_tag false s ++ '"' :: ',' :: encodeElems (s2 :: rest))).length
      simp only [List.length_cons, List.length_append] at ih ⊢
      omega

/-- Claim C2 (amended): decoding the encoded array literal returns `xs` for
every list of strings over the byte range excluding NUL and carriage return;
of the five characters escape-encoded by `escape_tag`, double quote,
backslash, newline and tab are restored by `decode_upto`, while an encoded
carriage return is decoded as the letter `r` (the decoder has no case for
it). -/
theorem decode_encode_roundtrip (xs : List Str)
    (h : ∀ s ∈ xs, Char.ofNat 0 ∉ s ∧ '\r' ∉ s) :
    decode_array (encode_array xs) = xs
    ∧ decode_upto ('"' :: (escape_tag false ['"', '\\', '\n', '\t'] ++ ['"']))
        = (['"', '\\', '\n', '\t'], [])
    ∧ decode_upto ('"' :: (escape_tag false ['\r'] ++ ['"'])) = (['r'], []) := by
  refine ⟨?_, by decide, by decide⟩
  cases hxs : xs with
  | nil => rfl
  | cons s rest =>
      have hr : ∀ t ∈ xs, '\r' ∉ t := fun t ht => (h t ht).2
      rw [← hxs]
      rw [show encode_array xs = '{' :: (encodeElems xs ++ ['}']) from by
        simp [encode_array, hxs]]
      rw [show decode_array ('{' :: (encodeElems xs ++ ['}']))
          = decodeElemsAux ((encodeElems xs ++ ['}']).length + 1) (encodeElems xs ++ ['}'])
          from rfl]
      apply decodeElemsAux_encode xs _ _ hr
      rw [List.length_append]
      exact Nat.lt_succ_of_le (Nat.le_add_right_of_le (encodeElems_length xs))

/-- Claim C2, counterexample: a carriage return does not round-trip — the
encoder writes `\r` but the decoder restores it as the letter `r`. -/
theorem decode_encode_cr_counterexample :
    decode_array (encode_array [['\r']]) = [['r']]
    ∧ decode_array (encode_array [['\r']]) ≠ [['\r']] := by
  decide

/-- Witness for `decode_encode_roundtrip` on strings exercising the other
four escapes. -/
theorem decode_encode_roundtrip_witness :
    decode_array (encode_array [['a', '\n'], ['"', '\\', '\t']])
      = [['a', '\n'], ['"', '\\', '\t']] :=
  (decode_encode_roundtrip [['a', '\n'], ['"', '\\', '\t']] (by decide)).1

/-! ## Count-mismatch handling on decode (claim C9) -/

/-- Decimal digit run of `strtoosmid`, accumulating into `acc`. -/
def readNatAux : List Char → Nat → Nat × List Char
  | [], acc => (acc, [])
  | c :: rest, acc =>
      if c.isDigit then readNatAux rest (acc * 10 + (c.toNat - 48)) else (acc, c :: rest)

/-- `strtoosmid` (`strtoll` with base 10): parse an optional minus sign and a
digit run; consumes nothing and returns 0 when no digits follow. -/
def readInt : List Char → Int × List Char
  | [] => (0, [])
  | c :: rest =>
      if c = '-' then
        match rest with
        | c2 :: _ =>
            if c2.isDigit then
              let p := readNatAux rest 0
              (-(p.1 : Int), p.2)
            else (0, c :: rest)
        | [] => (0, c :: rest)
      else if c.isDigit then
        let p := readNatAux (c :: rest) 0
        ((p.1 : Int), p.2)
      else (0, c :: rest)

/-- The outcome of `pgsql_parse_nodes`. -/
inductive ParseNodesResult where
  | earlyReturn
  | fatal
  | ok (ids : List Int)
  | diverge

/-- The id loop of `pgsql_parse_nodes`: until `}`, read one id with
`strtoosmid` and skip a following comma.  `fuel` bounds the iteration;
`none` models the C loop spinning forever on input where it makes no
progress, or running off an unterminated literal. -/
def parseIdsAux : Nat → List Char → Option (List Int)
  | 0, _ => none
  | _ + 1, [] => none
  | fuel + 1, c :: r =>
      if c = '}' then some []
      else
        let p := readInt (c :: r)
        let r2 := if p.2.head? = some ',' then p.2.tail else p.2
        if r2.length < (c :: r).length then
          (parseIdsAux fuel r2).map (fun ids => p.1 :: ids)
        else none

/-- `pgsql_parse_nodes`: an input not starting with `{` returns silently
(`earlyReturn`, no count check); otherwise parse the ids and `exit_nicely`
(`fatal`) whenever the parsed count differs from `nd_count` — in either
direction. -/
def pgsql_parse_nodes (src : List Char) (nd_count : Nat) : ParseNodesResult :=
  match src with
  | '{' :: rest =>
      match parseIdsAux (rest.length + 1) rest with
      | none => .diverge
      | some ids => if ids.length ≠ nd_count then .fatal else .ok ids
  | _ => .earlyReturn

/-- A decoded relation member as `relations_get` builds it: the type from the
key's first byte (`none` models the source's `(OsmType)-1` for an unknown
tag), the id parsed from the rest of the key, and the role. -/
structure MemberD where
  type : Option OsmType
  id : Int
  role : Str

/-- Decode the member-type tag character. -/
def decodeMemberType (c : Char) : Option OsmType :=
  if c = 'n' then some .node
  else if c = 'w' then some .way
  else if c = 'r' then some .rel
  else none

/-- The member-decoding loop of `relations_get`: pop each `(key, role)` pair;
`exit_nicely` (`.error`) as soon as the running index reaches the stored
member count (`i >= num_members`); otherwise decode type, id and role in
order.  `n` is the remaining allowance `num_members - i`. -/
def relations_get_decode : List (Str × Str) → Nat → Except Unit (List MemberD)
  | [], _ => .ok []
  | _ :: _, 0 => .error ()
  | (k, v) :: rest, n + 1 =>
      (relations_get_decode rest n).map
        (fun ms => ⟨decodeMemberType (k.headD (Char.ofNat 0)), (readInt (k.drop 1)).1, v⟩ :: ms)

/-- Claim C9 (amended): `pgsql_parse_nodes` is fatal whenever the parsed id
count differs from the expected count in either direction; `relations_get`
is fatal exactly when the decoded member list has more entries than the
stored member count — with fewer entries it returns normally. -/
theorem decode_count_mismatch_spec :
    (∀ (rest : List Char) (ids : List Int) (n : Nat),
      parseIdsAux (rest.length + 1) rest = some ids → ids.length ≠ n →
      pgsql_parse_nodes ('{' :: rest) n = .fatal)
    ∧ (∀ (pairs : List (Str × Str)) (n : Nat), n < pairs.length →
        relations_get_decode pairs n = .error ())
    ∧ (∀ (pairs : List (Str × Str)) (n : Nat), pairs.length ≤ n →
        ∃ ms, relations_get_decode pairs n = .ok ms) := by
  refine ⟨?_, ?_, ?_⟩
  · intro rest ids n hp hne
    simp [pgsql_parse_nodes, hp, hne]
  · intro pairs
    induction pairs with
    | nil => intro n hn; simp at hn
    | cons p rest ih =>
        intro n hn
        cases n with
        | zero => rfl
        | succ m =>
            have hm : m < rest.length := by
              simp only [List.length_cons] at hn
              omega
            obtain ⟨k, v⟩ := p
            rw [relations_get_decode, ih m hm]
            rfl
  · intro pairs
    induction pairs with
    | nil => intro n _; exact ⟨[], rfl⟩
    | cons p rest ih =>
        intro n hn
        cases n with
        | zero => simp at hn
        | succ m =>
            have hm : rest.length ≤ m := by
              simp only [List.length_cons] at hn
              omega
            obtain ⟨ms, hms⟩ := ih m hm
            obtain ⟨k, v⟩ := p
            refine ⟨⟨decodeMemberType (k.headD (Char.ofNat 0)),
              (readInt (k.drop 1)).1, v⟩ :: ms, ?_⟩
            rw [relations_get_decode, hms]
            rfl

/-- Claim C9, counterexample: a relation row whose member array decodes to
fewer entries (one) than the stored member count (two) is not fatal —
`relations_get` only exits when the index reaches the count, so the
fewer-direction mismatch returns normally. -/
theorem relations_get_fewer_members_counterexample :
    relations_get_decode [(['n', '5'], [])] 2
      = .ok [⟨some .node, 5, []⟩]
    ∧ relations_get_decode [(['n', '5'], [])] 2 ≠ .error () := by
  constructor
  · rfl
  · intro h
    rw [show relations_get_decode [(['n', '5'], [])] 2
        = .ok [⟨some .node, 5, []⟩] from rfl] at h
    exact Except.noConfusion h

/-- Witness for `decode_count_mismatch_spec`: `{5,6}` against an expected
count of 3 is fatal, and a member pair against a stored count of 0 is
fatal. -/
theorem decode_count_mismatch_spec_witness :
    pgsql_parse_nodes ['{', '5', ',', '6', '}'] 3 = .fatal
    ∧ relations_get_decode [(['n', '5'], [])] 0 = .error () :=
  ⟨decode_count_mismatch_spec.1 ['5', ',', '6', '}'] [5, 6] 3 (by decide) (by decide),
   decode_count_mismatch_spec.2.1 [(['n', '5'], [])] 0 (by decide)⟩

end OsmMiddle
